import Mathlib

set_option maxHeartbeats 1000000

namespace Mcpr

/-! # Shallow embedding of the mcpr configuration synchronizer

Embeds the data model and operations of the Go repository `jrandolf/mcpr`:
the config store (`config/config.go`), the JSON key-merge format adapters
(`clients/*.go`, `syncToSettingsWithKey` and friends), the line-oriented
TOML section-rewrite adapter (`clients/codex.go`), and the resync-all batch
loop (`cmd/client.go`).

Modelling conventions:
* Go strings handled byte-by-byte (the TOML adapter) are modelled as
  `List Char`; byte-identical file contents is list equality.
* Go `map[string]T` values are modelled as association lists kept in the
  canonical order in which `encoding/json` serializes a map: sorted by key,
  no duplicate keys.  A map assignment is `setKey`; building a map by a
  sequence of assignments is `mkObj`.
* Go slices/maps used only through `len`, iteration and indexing are
  modelled as `List`; the nil/empty distinction is not observable for them
  in this program.  `SyncedClient.Servers` is the one field whose JSON
  presence matters (`servers` absent vs `[]`), so it is an `Option`.
* File I/O becomes explicit values: a read yields a `ReadResult`, adapters
  are pure functions from the parsed old content to the new content.
-/

/-- Generic JSON value as produced by Go `encoding/json` unmarshalling into
`map[string]any` trees.  Objects are association lists; since Go maps are
unordered and `encoding/json` emits map keys in sorted order, the canonical
representation of a parsed or emitted map keeps its entries sorted by key. -/
inductive Json where
  | str (s : String)
  | num (n : Int)
  | bool (b : Bool)
  | null
  | arr (elems : List Json)
  | obj (fields : List (String × Json))

/-- Lexicographic comparison of character lists by code point. -/
def lexLt : List Char → List Char → Bool
  | [], [] => false
  | [], _ :: _ => true
  | _ :: _, [] => false
  | a :: as, b :: bs =>
    if a.toNat < b.toNat then true
    else if a.toNat = b.toNat then lexLt as bs
    else false

/-- Go string comparison `a < b` (byte-lexicographic; UTF-8 byte order and
code-point order agree). -/
def strLt (a b : String) : Bool :=
  lexLt a.toList b.toList

/-- Go string comparison `a <= b`. -/
def strLe (a b : String) : Bool :=
  !(strLt b a)

/-- Go map assignment `settings[key] = v`, viewed on the canonical sorted
association-list representation of the map: replace the binding if the key
is present, otherwise insert at the sorted position. -/
def setKey (k : String) (v : Json) : List (String × Json) → List (String × Json)
  | [] => [(k, v)]
  | (a, b) :: rest =>
    if strLt k a then (k, v) :: (a, b) :: rest
    else if k = a then (k, v) :: rest
    else (a, b) :: setKey k v rest

/-- Building a Go map by successive assignments (canonical representation). -/
def mkObj (l : List (String × Json)) : List (String × Json) :=
  l.foldl (fun acc kv => setKey kv.1 kv.2 acc) []

/-- MCPServer from `config/config.go`: a named server definition.
`args`, `env`, `headers` carry `omitempty` in the Go struct and are only
observed through `len` and iteration, so they are plain lists. -/
structure MCPServer where
  name : String
  type : String
  command : String
  args : List String
  env : List (String × String)
  url : String
  headers : List (String × String)
deriving DecidableEq, Repr

/-- SyncedClient from `config/config.go`.  `isLocal` is the Go field
`Local` (`local` is a Lean keyword).  `servers` distinguishes a JSON file
with the key absent (Go nil slice, `none`) from one with an explicit list
(`some`), which is what the `omitempty` tag on `Servers` manipulates. -/
structure SyncedClient where
  name : String
  isLocal : Bool
  servers : Option (List String)
deriving DecidableEq, Repr

/-- Config from `config/config.go`: the aggregate of server records,
synced-client records and the bound filesystem path. -/
structure Config where
  servers : List MCPServer
  syncedClients : List SyncedClient
  path : String
deriving DecidableEq, Repr

/-- Error taxonomy of the config store operations (the Go code returns
`fmt.Errorf` values; the spec names the classes). -/
inductive ConfigError where
  | alreadyExists (name : String)
  | notFound (name : String)
deriving DecidableEq, Repr

/-- Config.AddServer: scan for a record with the same name; on a hit return
the already-exists error leaving the receiver untouched, otherwise append.
The pair mirrors Go's (mutated receiver, returned error): on the error path
the store is returned unchanged. -/
def Config.addServer (c : Config) (server : MCPServer) : Config × Option ConfigError :=
  if c.servers.any (fun s => s.name == server.name) then
    (c, some (.alreadyExists server.name))
  else
    ({ c with servers := c.servers ++ [server] }, none)

/-- Config.RemoveServer: remove the first record with the given name,
preserving the relative order of the rest; error when absent. -/
def removeServerList (name : String) : List MCPServer → Option (List MCPServer)
  | [] => none
  | s :: rest =>
    if s.name == name then some rest
    else (removeServerList name rest).map (s :: ·)

/-- Config.RemoveServer wrapper on the aggregate. -/
def Config.removeServer (c : Config) (name : String) : Config × Option ConfigError :=
  match removeServerList name c.servers with
  | some rest => ({ c with servers := rest }, none)
  | none => (c, some (.notFound name))

/-- Config.GetServer: first record with the given name, else not-found. -/
def Config.getServer (c : Config) (name : String) : Except ConfigError MCPServer :=
  match c.servers.find? (fun s => s.name == name) with
  | some s => .ok s
  | none => .error (.notFound name)

/-- Config.ListServers. -/
def Config.listServers (c : Config) : List MCPServer :=
  c.servers

/-- Loop body of Config.AddSyncedClient: find the record with the same
(name, local) key and overwrite its `Servers` field, else append a fresh
record at the end. -/
def addSyncedClientList (clientName : String) (isLocal : Bool)
    (servers : Option (List String)) : List SyncedClient → List SyncedClient
  | [] => [⟨clientName, isLocal, servers⟩]
  | sc :: rest =>
    if sc.name == clientName && sc.isLocal == isLocal then
      { sc with servers := servers } :: rest
    else
      sc :: addSyncedClientList clientName isLocal servers rest

/-- Config.AddSyncedClient on the aggregate. -/
def Config.addSyncedClient (c : Config) (clientName : String) (isLocal : Bool)
    (servers : Option (List String)) : Config :=
  { c with syncedClients := addSyncedClientList clientName isLocal servers c.syncedClients }

/-- Loop body of Config.RemoveSyncedClient: drop the first record with the
matching (name, local) key; no-op when absent. -/
def removeSyncedClientList (clientName : String) (isLocal : Bool) :
    List SyncedClient → List SyncedClient
  | [] => []
  | sc :: rest =>
    if sc.name == clientName && sc.isLocal == isLocal then rest
    else sc :: removeSyncedClientList clientName isLocal rest

/-- Config.RemoveSyncedClient on the aggregate. -/
def Config.removeSyncedClient (c : Config) (clientName : String) (isLocal : Bool) : Config :=
  { c with syncedClients := removeSyncedClientList clientName isLocal c.syncedClients }

/-- Config.GetSyncedClient: first record with the matching key. -/
def Config.getSyncedClient (c : Config) (clientName : String) (isLocal : Bool) :
    Option SyncedClient :=
  c.syncedClients.find? (fun sc => sc.name == clientName && sc.isLocal == isLocal)

/-! ## Persistence: json.MarshalIndent / json.Unmarshal of the Config struct -/

/-- Go map assignment for string-valued maps (canonical representation),
used when unmarshalling a JSON object into a `map[string]string`. -/
def setKeyStr (k v : String) : List (String × String) → List (String × String)
  | [] => [(k, v)]
  | (a, b) :: rest =>
    if strLt k a then (k, v) :: (a, b) :: rest
    else if k = a then (k, v) :: rest
    else (a, b) :: setKeyStr k v rest

/-- Building a `map[string]string` from JSON object entries in file order:
later duplicate keys overwrite earlier ones, and the map forgets entry
order (canonical sorted representation). -/
def mkStrMap (l : List (String × String)) : List (String × String) :=
  l.foldl (fun acc kv => setKeyStr kv.1 kv.2 acc) []

/-- Marshalling a `map[string]string`: entries of the canonical
representation in order, values as JSON strings. -/
def encodeStrMap (m : List (String × String)) : Json :=
  .obj (m.map fun kv => (kv.1, .str kv.2))

/-- Marshalling one MCPServer struct: fields in declaration order
(`name`, `type`, `command`, `args`, `env`, `url`, `headers`), with the
`omitempty` fields dropped when empty, exactly as the struct tags say. -/
def encodeServer (s : MCPServer) : Json :=
  .obj ([("name", .str s.name), ("type", .str s.type)]
    ++ (if s.command = "" then [] else [("command", .str s.command)])
    ++ (if s.args = [] then [] else [("args", .arr (s.args.map .str))])
    ++ (if s.env = [] then [] else [("env", encodeStrMap s.env)])
    ++ (if s.url = "" then [] else [("url", .str s.url)])
    ++ (if s.headers = [] then [] else [("headers", encodeStrMap s.headers)]))

/-- Marshalling one SyncedClient struct: `name`, `local`, then `servers`
with `omitempty`, which drops the field when the slice has length zero
(both a nil slice and an explicit empty list are dropped). -/
def encodeSyncedClient (sc : SyncedClient) : Json :=
  .obj ([("name", .str sc.name), ("local", .bool sc.isLocal)]
    ++ (match sc.servers with
        | none => []
        | some l => if l = [] then [] else [("servers", .arr (l.map .str))]))

/-- Marshalling the whole Config aggregate (the unexported `path` field is
not serialized; `synced_clients` carries `omitempty`). -/
def encodeConfig (c : Config) : Json :=
  .obj ([("servers", .arr (c.servers.map encodeServer))]
    ++ (if c.syncedClients = [] then []
        else [("synced_clients", .arr (c.syncedClients.map encodeSyncedClient))]))

/-- ASCII case folding of one character (upper-case letter to lower-case).
json.Unmarshal matches incoming object keys to struct field names
case-insensitively; every field name of this format is plain ASCII, on
which Go folding is exactly ASCII case-insensitivity.  (Go additionally
folds the few non-ASCII letters in the same Unicode fold set as an ASCII
letter; such keys are modelled as matching nothing.) -/
def foldChar (c : Char) : Char :=
  if 65 ≤ c.toNat ∧ c.toNat ≤ 90 then Char.ofNat (c.toNat + 32) else c

/-- Case-insensitive key comparison of json.Unmarshal field matching. -/
def eqFold (a b : String) : Bool :=
  a.toList.map foldChar == b.toList.map foldChar

/-- Streaming decode of a string struct field, as json.Unmarshal performs
it: object entries are processed in order, every key that case-insensitively
matches the field name overwrites the field (so a later duplicate wins), a
null value is a no-op, a value of any other type is an unmarshal type error
(which makes the whole load fail), and an absent field keeps the zero
value. -/
def decodeStrFieldFrom (k : String) (cur : String) :
    List (String × Json) → Option String
  | [] => some cur
  | (key, v) :: rest =>
    if eqFold key k then
      match v with
      | .str s => decodeStrFieldFrom k s rest
      | .null => decodeStrFieldFrom k cur rest
      | _ => none
    else decodeStrFieldFrom k cur rest

/-- Decode of a string struct field starting from the zero value. -/
def decodeStrField (fields : List (String × Json)) (k : String) : Option String :=
  decodeStrFieldFrom k "" fields

/-- Streaming decode of a bool struct field (same conventions as for
string fields). -/
def decodeBoolFieldFrom (k : String) (cur : Bool) :
    List (String × Json) → Option Bool
  | [] => some cur
  | (key, v) :: rest =>
    if eqFold key k then
      match v with
      | .bool b => decodeBoolFieldFrom k b rest
      | .null => decodeBoolFieldFrom k cur rest
      | _ => none
    else decodeBoolFieldFrom k cur rest

/-- Decode of a bool struct field starting from the zero value. -/
def decodeBoolField (fields : List (String × Json)) (k : String) : Option Bool :=
  decodeBoolFieldFrom k false fields

/-- Unmarshalling a JSON array of strings; a null element leaves the zero
string (Go decodes null into a string element as a no-op). -/
def decodeStrElems : List Json → Option (List String)
  | [] => some []
  | .str s :: rest => (decodeStrElems rest).map (s :: ·)
  | .null :: rest => (decodeStrElems rest).map ("" :: ·)
  | _ => none

/-- Streaming decode of a `[]string` struct field: a matching array resets
the slice to the decoded elements, a matching null sets the slice to nil
(`none`), later matches win. -/
def decodeStrListFrom (k : String) (cur : Option (List String)) :
    List (String × Json) → Option (Option (List String))
  | [] => some cur
  | (key, v) :: rest =>
    if eqFold key k then
      match v with
      | .arr xs =>
        match decodeStrElems xs with
        | some l => decodeStrListFrom k (some l) rest
        | none => none
      | .null => decodeStrListFrom k none rest
      | _ => none
    else decodeStrListFrom k cur rest

/-- Decode of a `[]string` struct field (zero value nil): `none` for a
nil slice, `some` for a present array. -/
def decodeStrListField (fields : List (String × Json)) (k : String) :
    Option (Option (List String)) :=
  decodeStrListFrom k none fields

/-- Unmarshalling JSON object entries whose values must be strings; a null
value stores the zero string under its key. -/
def decodeStrPairs : List (String × Json) → Option (List (String × String))
  | [] => some []
  | (k, .str s) :: rest => (decodeStrPairs rest).map ((k, s) :: ·)
  | (k, .null) :: rest => (decodeStrPairs rest).map ((k, "") :: ·)
  | _ => none

/-- Assigning decoded object entries into an existing map, in entry
order. -/
def mergeStrMap (cur : List (String × String)) (l : List (String × String)) :
    List (String × String) :=
  l.foldl (fun acc kv => setKeyStr kv.1 kv.2 acc) cur

/-- Streaming decode of a `map[string]string` struct field: a matching
object is assigned entry by entry into the existing map (Go keeps existing
entries when unmarshalling into a non-nil map, so repeated keys merge), a
matching null sets the map to nil. -/
def decodeStrMapFrom (k : String) (cur : List (String × String)) :
    List (String × Json) → Option (List (String × String))
  | [] => some cur
  | (key, v) :: rest =>
    if eqFold key k then
      match v with
      | .obj kvs =>
        match decodeStrPairs kvs with
        | some l => decodeStrMapFrom k (mergeStrMap cur l) rest
        | none => none
      | .null => decodeStrMapFrom k [] rest
      | _ => none
    else decodeStrMapFrom k cur rest

/-- Decode of a `map[string]string` struct field starting from the nil
(empty) map. -/
def decodeStrMapField (fields : List (String × Json)) (k : String) :
    Option (List (String × String)) :=
  decodeStrMapFrom k [] fields

/-- Unmarshalling one MCPServer: an object decodes field-wise; a null
array element decodes to the zero record with no error; anything else is a
type error. -/
def decodeServer : Json → Option MCPServer
  | .obj fields => do
    let name ← decodeStrField fields "name"
    let type ← decodeStrField fields "type"
    let command ← decodeStrField fields "command"
    let args ← decodeStrListField fields "args"
    let env ← decodeStrMapField fields "env"
    let url ← decodeStrField fields "url"
    let headers ← decodeStrMapField fields "headers"
    some ⟨name, type, command, args.getD [], env, url, headers⟩
  | .null => some ⟨"", "", "", [], [], "", []⟩
  | _ => none

/-- Unmarshalling one SyncedClient (same conventions as for MCPServer). -/
def decodeSyncedClient : Json → Option SyncedClient
  | .obj fields => do
    let name ← decodeStrField fields "name"
    let isLocal ← decodeBoolField fields "local"
    let servers ← decodeStrListField fields "servers"
    some ⟨name, isLocal, servers⟩
  | .null => some ⟨"", false, none⟩
  | _ => none

/-- Unmarshalling a list of values elementwise. -/
def decodeList (dec : Json → Option α) : List Json → Option (List α)
  | [] => some []
  | j :: rest => do
    let a ← dec j
    let as ← decodeList dec rest
    some (a :: as)

/-- Streaming decode of a struct-array field: a matching array resets the
slice to the decoded elements, a matching null sets it to nil, later
matches win. -/
def decodeArrFrom (dec : Json → Option α) (k : String) (cur : List α) :
    List (String × Json) → Option (List α)
  | [] => some cur
  | (key, v) :: rest =>
    if eqFold key k then
      match v with
      | .arr xs =>
        match decodeList dec xs with
        | some l => decodeArrFrom dec k l rest
        | none => none
      | .null => decodeArrFrom dec k [] rest
      | _ => none
    else decodeArrFrom dec k cur rest

/-- Decode of a struct-array field whose zero value behaves as the empty
list. -/
def decodeArrField (dec : Json → Option α) (fields : List (String × Json))
    (k : String) : Option (List α) :=
  decodeArrFrom dec k [] fields

/-- Unmarshalling the whole Config document (the `path` is filled in by the
loader, not the decoder).  A top-level null is accepted by json.Unmarshal
as a no-op on the zero value, so it decodes to the empty aggregate. -/
def decodeConfig : Json → Option Config
  | .obj fields => do
    let servers ← decodeArrField decodeServer fields "servers"
    let synced ← decodeArrField decodeSyncedClient fields "synced_clients"
    some ⟨servers, synced, ""⟩
  | .null => some ⟨[], [], ""⟩
  | _ => none

/-- Outcome of reading a file: missing, failing with some other I/O error,
or content.  Content that is well-formed JSON is carried as its parsed
tree; `content none` stands for text that does not parse as JSON. -/
inductive ReadResult where
  | missing
  | readError
  | content (doc : Option Json)

/-- Error classes of the loader per the spec taxonomy. -/
inductive LoadError where
  | parseError
  | ioError
deriving DecidableEq, Repr

deriving instance DecidableEq for Except

/-- LoadFromPath from `config/config.go`: a missing file yields the empty
aggregate bound to the requested path; unreadable files are I/O errors;
content that fails `json.Unmarshal` (not JSON at all, or JSON of the wrong
shape) is a parse error; otherwise the decoded aggregate is bound to the
requested path. -/
def loadFromPath (path : String) (r : ReadResult) : Except LoadError Config :=
  match r with
  | .missing => .ok { servers := [], syncedClients := [], path := path }
  | .readError => .error .ioError
  | .content none => .error .parseError
  | .content (some j) =>
    match decodeConfig j with
    | none => .error .parseError
    | some c => .ok { c with path := path }

/-- Path Config.Save writes to: the bound path, or the global config path
when no path is bound yet. -/
def Config.savePath (c : Config) (globalPath : String) : String :=
  if c.path = "" then globalPath else c.path

/-- Document Config.Save writes (json.MarshalIndent of the aggregate). -/
def Config.saveDoc (c : Config) : Json :=
  encodeConfig c

/-! ## JSON serialization (json.MarshalIndent)

The serializer fixes the byte representation of a tree.  Whitespace of
`MarshalIndent` is abstracted to the compact form: both are deterministic
functions of the tree, which is what the byte-identity properties need. -/

/-- Lower-case hex digit. -/
def hexDigit (n : Nat) : Char :=
  "0123456789abcdef".toList.getD n '0'

/-- Escaping of one character inside a JSON string, per encoding/json
(which also escapes the HTML-sensitive characters). -/
def jsonEscapeChar (c : Char) : String :=
  if c = '"' then "\\\""
  else if c = '\\' then "\\\\"
  else if c = '\n' then "\\n"
  else if c = '\r' then "\\r"
  else if c = '\t' then "\\t"
  else if c = '<' then "\\u003c"
  else if c = '>' then "\\u003e"
  else if c = '&' then "\\u0026"
  else if c.toNat < 32 then
    "\\u00" ++ String.mk [hexDigit (c.toNat / 16), hexDigit (c.toNat % 16)]
  else String.singleton c

/-- Quoted JSON string literal. -/
def jsonQuote (s : String) : String :=
  "\"" ++ String.join (s.toList.map jsonEscapeChar) ++ "\""

mutual

/-- Serializing a JSON tree to its byte representation. -/
def serializeJson : Json → String
  | .str s => jsonQuote s
  | .num n => toString n
  | .bool b => if b then "true" else "false"
  | .null => "null"
  | .arr xs => "[" ++ serializeElems xs ++ "]"
  | .obj kvs => "\x7b" ++ serializeFields kvs ++ "\x7d"
  termination_by j => sizeOf j
  decreasing_by all_goals (simp_wf <;> omega)

/-- Serializing array elements, comma separated. -/
def serializeElems : List Json → String
  | [] => ""
  | [x] => serializeJson x
  | x :: y :: rest => serializeJson x ++ "," ++ serializeElems (y :: rest)
  termination_by xs => sizeOf xs
  decreasing_by all_goals (simp_wf <;> omega)

/-- Serializing object fields in representation order, comma separated. -/
def serializeFields : List (String × Json) → String
  | [] => ""
  | [(k, v)] => jsonQuote k ++ ":" ++ serializeJson v
  | (k, v) :: f :: rest => jsonQuote k ++ ":" ++ serializeJson v ++ "," ++ serializeFields (f :: rest)
  termination_by kvs => sizeOf kvs
  decreasing_by all_goals (simp_wf <;> omega)

end

/-! ## Key-merge format adapters

Each of these Go functions reads the destination file into a
`map[string]any` (missing file: empty map), builds a fresh value for its
designated key, assigns `settings[key] = value` and re-serializes.  The
adapters below are the pure tree transforms; the enclosing read/write is
`loadSettings`/`serializeJson` at the call boundary. -/

/-- Per-server entry of syncToSettingsWithKey (part_001): url (+ headers
when non-empty) for http, command (+ args, env when non-empty) for stdio,
assembled as a Go map. -/
def settingsEntry (server : MCPServer) : Json :=
  .obj (mkObj (if server.type = "http" then
      [("url", .str server.url)]
      ++ (if server.headers ≠ [] then [("headers", encodeStrMap server.headers)] else [])
    else
      [("command", .str server.command)]
      ++ (if server.args ≠ [] then [("args", .arr (server.args.map .str))] else [])
      ++ (if server.env ≠ [] then [("env", encodeStrMap server.env)] else [])))

/-- The freshly built `mcpServers` map of syncToSettingsWithKey: one entry
per input server keyed by name. -/
def mcpServersValue (servers : List MCPServer) : Json :=
  .obj (mkObj (servers.map fun s => (s.name, settingsEntry s)))

/-- syncToSettingsWithKey (part_001): replace exactly the designated key of
the existing settings tree with the freshly built server map. -/
def syncToSettingsWithKey (servers : List MCPServer) (key : String)
    (settings : List (String × Json)) : List (String × Json) :=
  setKey key (mcpServersValue servers) settings

/-- syncToSettingsWithMcpServers (part_001). -/
def syncToSettingsWithMcpServers (servers : List MCPServer)
    (settings : List (String × Json)) : List (String × Json) :=
  syncToSettingsWithKey servers "mcpServers" settings

/-- Per-server entry of syncToClaudeCode (part_003): a `type` discriminator
plus the url/command fields. -/
def claudeCodeEntry (server : MCPServer) : Json :=
  .obj (mkObj (if server.type = "http" then
      [("type", .str "http"), ("url", .str server.url)]
      ++ (if server.headers ≠ [] then [("headers", encodeStrMap server.headers)] else [])
    else
      [("type", .str "stdio"), ("command", .str server.command)]
      ++ (if server.args ≠ [] then [("args", .arr (server.args.map .str))] else [])
      ++ (if server.env ≠ [] then [("env", encodeStrMap server.env)] else [])))

/-- syncToClaudeCode (part_003): merge under the `mcpServers` key. -/
def syncToClaudeCode (servers : List MCPServer)
    (settings : List (String × Json)) : List (String × Json) :=
  setKey "mcpServers" (.obj (mkObj (servers.map fun s => (s.name, claudeCodeEntry s)))) settings

/-- Per-server entry of syncToZed (part_002): stdio data nested under a
`command` object with a `path` field, plus an empty `settings` object. -/
def zedEntry (server : MCPServer) : Json :=
  .obj (mkObj (if server.type = "http" then
      [("url", .str server.url), ("settings", .obj [])]
      ++ (if server.headers ≠ [] then [("headers", encodeStrMap server.headers)] else [])
    else
      [("command", .obj (mkObj ([("path", .str server.command)]
          ++ (if server.args ≠ [] then [("args", .arr (server.args.map .str))] else [])
          ++ (if server.env ≠ [] then [("env", encodeStrMap server.env)] else [])))),
       ("settings", .obj [])]))

/-- syncToZed (part_002): merge under the `context_servers` key. -/
def syncToZed (servers : List MCPServer)
    (settings : List (String × Json)) : List (String × Json) :=
  setKey "context_servers" (.obj (mkObj (servers.map fun s => (s.name, zedEntry s)))) settings

/-- Per-server entry of syncToOpenCode (part_002): local/remote type tag,
combined command array (command followed by args), `environment` key. -/
def openCodeEntry (server : MCPServer) : Json :=
  .obj (mkObj (if server.type = "http" then
      [("type", .str "remote"), ("url", .str server.url)]
      ++ (if server.headers ≠ [] then [("headers", encodeStrMap server.headers)] else [])
    else
      [("type", .str "local"),
       ("command", .arr ((server.command :: server.args).map .str))]
      ++ (if server.env ≠ [] then [("environment", encodeStrMap server.env)] else [])))

/-- syncToOpenCode (part_002): merge under the `mcp` key. -/
def syncToOpenCode (servers : List MCPServer)
    (settings : List (String × Json)) : List (String × Json) :=
  setKey "mcp" (.obj (mkObj (servers.map fun s => (s.name, openCodeEntry s)))) settings

/-- Per-server element of syncToContinue (continue.go): a `name` plus a
`transport` sub-object. -/
def continueEntry (server : MCPServer) : Json :=
  .obj (mkObj [("name", .str server.name),
    ("transport", .obj (mkObj (if server.type = "http" then
        [("type", .str "sse"), ("url", .str server.url)]
        ++ (if server.headers ≠ [] then [("headers", encodeStrMap server.headers)] else [])
      else
        [("type", .str "stdio"), ("command", .str server.command)]
        ++ (if server.args ≠ [] then [("args", .arr (server.args.map .str))] else [])
        ++ (if server.env ≠ [] then [("env", encodeStrMap server.env)] else []))))])

/-- syncToContinue (continue.go): merge an array (one element per server,
in input order) under the `mcpServers` key. -/
def syncToContinue (servers : List MCPServer)
    (settings : List (String × Json)) : List (String × Json) :=
  setKey "mcpServers" (.arr (servers.map continueEntry)) settings

/-! ## The line-oriented TOML adapter (clients/codex.go)

File contents are byte strings, modelled as `List Char`; the helper
functions translate the hand-rolled Go helpers of codex.go one-to-one. -/

/-- tomlSplitLines: split at every newline; the text after the last
newline, when non-empty, is a final line; the empty string has no lines. -/
def tomlSplitLines : List Char → List (List Char)
  | [] => []
  | '\n' :: rest => [] :: tomlSplitLines rest
  | c :: rest =>
    match tomlSplitLines rest with
    | [] => [[c]]
    | l :: ls => (c :: l) :: ls

/-- tomlJoinLines: interleave single newlines (no trailing newline). -/
def tomlJoinLines : List (List Char) → List Char
  | [] => []
  | [l] => l
  | l :: ls => l ++ '\n' :: tomlJoinLines ls

/-- tomlTrimWhitespace: strip spaces and tabs from both ends. -/
def tomlTrimWhitespace (l : List Char) : List Char :=
  ((l.dropWhile (fun c => c = ' ' ∨ c = '\t')).reverse.dropWhile
    (fun c => c = ' ' ∨ c = '\t')).reverse

/-- tomlHasPrefix. -/
def tomlHasPrefix (s prefix_ : List Char) : Bool :=
  prefix_.isPrefixOf s

/-- tomlHasSuffix. -/
def tomlHasSuffix (s suffix_ : List Char) : Bool :=
  suffix_.isSuffixOf s

/-- Recognizing a section header the tool owns: the trimmed line starts
with the fixed `[mcp_servers.` prefix. -/
def isMcpHeader (l : List Char) : Bool :=
  tomlHasPrefix (tomlTrimWhitespace l) "[mcp_servers.".toList

/-- Recognizing any section header start: the trimmed line starts with a
bracket. -/
def startsBracket (l : List Char) : Bool :=
  tomlHasPrefix (tomlTrimWhitespace l) ['[']

/-- The filtering loop of syncToCodex: walk the lines with an `inMcpSection`
flag, dropping header lines of owned sections and everything until the next
section header, keeping all other lines. -/
def filterMcpLines (inMcp : Bool) : List (List Char) → List (List Char)
  | [] => []
  | l :: ls =>
    if isMcpHeader l then filterMcpLines true ls
    else if inMcp then
      if startsBracket l then l :: filterMcpLines false ls
      else filterMcpLines true ls
    else l :: filterMcpLines false ls

/-- Go `%q` (strconv.Quote) on one character.  ASCII escaping is modelled
exactly; printable non-ASCII runes pass through unchanged (Go escapes the
non-printable ones, which never changes the properties proved here). -/
def goQuoteChar (c : Char) : List Char :=
  if c = '"' then ['\\', '"']
  else if c = '\\' then ['\\', '\\']
  else if c = '\n' then ['\\', 'n']
  else if c = '\t' then ['\\', 't']
  else if c = '\r' then ['\\', 'r']
  else if c = Char.ofNat 7 then ['\\', 'a']
  else if c = Char.ofNat 8 then ['\\', 'b']
  else if c = Char.ofNat 12 then ['\\', 'f']
  else if c = Char.ofNat 11 then ['\\', 'v']
  else if c.toNat < 32 ∨ c.toNat = 127 then
    ['\\', 'x', hexDigit (c.toNat / 16), hexDigit (c.toNat % 16)]
  else [c]

/-- Go `%q` on a string: quoted, characters escaped. -/
def goQuote (s : String) : List Char :=
  '"' :: (s.toList.map goQuoteChar).flatten ++ ['"']

/-- Go sort.Strings. -/
def sortStrings (l : List String) : List String :=
  l.mergeSort strLe

/-- Comma-joining of inline pieces, mirroring the Go loop that prepends
`", "` before every piece but the first. -/
def commaJoin : List (List Char) → List Char
  | [] => []
  | [x] => x
  | x :: xs => x ++ ", ".toList ++ commaJoin xs

/-- The inline-table body `"k1" = "v1", "k2" = "v2"` of codex.go section
generation: map keys collected, sorted, each value looked up in the map. -/
def inlinePairs (m : List (String × String)) : List Char :=
  commaJoin
    ((sortStrings (m.map Prod.fst)).map fun k =>
      goQuote k ++ " = ".toList ++ goQuote ((m.lookup k).getD ""))

/-- Comma separated quoted args of codex.go section generation. -/
def inlineArgs (args : List String) : List Char :=
  commaJoin (args.map goQuote)

/-- Text of a block of newline-terminated lines. -/
def lineText (ls : List (List Char)) : List Char :=
  (ls.map (· ++ ['\n'])).flatten

/-- The lines of one generated `[mcp_servers.<name>]` section of
syncToCodex (the Go code emits exactly these lines, each followed by one
newline): the header, the url/command line, and the optional lines omitted
exactly when their source collection is empty.  The server name is spliced
into the header unquoted, as in the Go `fmt.Sprintf`. -/
def sectionLines (server : MCPServer) : List (List Char) :=
  if server.type = "http" then
    ["[mcp_servers.".toList ++ server.name.toList ++ [']'],
     "url = ".toList ++ goQuote server.url]
    ++ (if server.headers ≠ [] then
          ["http_headers = \x7b ".toList ++ inlinePairs server.headers ++ " \x7d".toList]
        else [])
  else
    ["[mcp_servers.".toList ++ server.name.toList ++ [']'],
     "command = ".toList ++ goQuote server.command]
    ++ (if server.args ≠ [] then
          ["args = [".toList ++ inlineArgs server.args ++ [']']]
        else [])
    ++ (if server.env ≠ [] then
          ["env = \x7b ".toList ++ inlinePairs server.env ++ " \x7d".toList]
        else [])

/-- One generated section as text. -/
def sectionFor (server : MCPServer) : List Char :=
  lineText (sectionLines server)

/-- The header line of one generated section. -/
def headerLineFor (server : MCPServer) : List Char :=
  "[mcp_servers.".toList ++ server.name.toList ++ [']']

/-- The line blocks of the whole generated tail: each section's lines
followed by the blank line the Go loop inserts between sections. -/
def sectionBlock (servers : List MCPServer) : List (List Char) :=
  (servers.map fun s => sectionLines s ++ [[]]).flatten

/-- The generated tail of syncToCodex: every section followed by one extra
newline (`result += section + "\n"`). -/
def sectionsText (servers : List MCPServer) : List Char :=
  (servers.map fun s => sectionFor s ++ ['\n']).flatten

/-- The separator logic of syncToCodex: when sections will be appended to
non-empty retained content, pad it so that it ends with a blank line. -/
def padSep (result : List Char) : List Char :=
  if result ≠ [] ∧ ¬ tomlHasSuffix result ['\n', '\n'] then
    if tomlHasSuffix result ['\n'] then result ++ ['\n']
    else result ++ ['\n', '\n']
  else result

/-- syncToCodex (clients/codex.go): drop previously owned sections from the
raw lines, keep everything else verbatim, and append one freshly generated
section per input server (none when the server list is empty). -/
def syncToCodex (servers : List MCPServer) (content : List Char) : List Char :=
  let filtered := filterMcpLines false (tomlSplitLines content)
  let result := tomlJoinLines filtered
  if servers = [] then result
  else padSep result ++ sectionsText servers

/-! ## The resync-all batch (cmd/client.go)

The client registry lookup and the adapter/path side of `Client.Sync` are
abstracted into an environment: the set of registered client names, and the
outcome (written path or error text) of syncing one record.  The
server-subset resolution, the error strings, and the continue-on-failure
control flow are translated from `resyncAll` directly. -/

/-- Environment of one resync-all run. -/
structure ResyncEnv where
  known : List String
  syncResult : String → Bool → Except String String

/-- The server-resolution part of one resyncAll iteration: an explicit
non-empty (length > 0) server list resolves name by name, recording one
error per missing name and continuing; otherwise all stored servers. -/
def resolveServers (cfg : Config) (sc : SyncedClient) : List MCPServer × List String :=
  match sc.servers with
  | some names =>
    if names.length > 0 then
      names.foldl
        (fun acc n =>
          match cfg.getServer n with
          | .ok s => (acc.1 ++ [s], acc.2)
          | .error _ => (acc.1, acc.2 ++ [sc.name ++ ": server \"" ++ n ++ "\" not found"]))
        ([], [])
    else (cfg.listServers, [])
  | none => (cfg.listServers, [])

/-- One iteration of the resyncAll loop: unknown client, empty resolved
subset and sync failure each record errors and fail the record; a record
with resolution errors but a non-empty subset still syncs.  The returned
flag is whether `successCount` was incremented. -/
def resyncStep (env : ResyncEnv) (cfg : Config) (sc : SyncedClient) : Bool × List String :=
  if env.known.contains sc.name then
    let resolved := resolveServers cfg sc
    if resolved.1 = [] then (false, resolved.2 ++ [sc.name ++ ": no servers to sync"])
    else
      match env.syncResult sc.name sc.isLocal with
      | .error e => (false, resolved.2 ++ [sc.name ++ ": " ++ e])
      | .ok _ => (true, resolved.2)
  else (false, [sc.name ++ ": unknown client: " ++ sc.name])

/-- resyncAll (cmd/client.go): process every stored synced-client record,
never aborting; per record the success flag and its error strings. -/
def resyncAll (env : ResyncEnv) (cfg : Config) : List (String × Bool × List String) :=
  cfg.syncedClients.map fun sc => (sc.name, resyncStep env cfg sc)

/-- Names of the records counted in `successCount`. -/
def resyncSuccesses (r : List (String × Bool × List String)) : List String :=
  (r.filter fun x => x.2.1).map (·.1)

/-- Names of the records that failed (processed but not counted). -/
def resyncFailures (r : List (String × Bool × List String)) : List String :=
  (r.filter fun x => ¬ x.2.1).map (·.1)

/-- The aggregated error list printed after the loop. -/
def resyncErrors (r : List (String × Bool × List String)) : List String :=
  (r.map (·.2.2)).flatten

/-- The (name, local) key of a synced-client record. -/
def syncedKey (sc : SyncedClient) : String × Bool :=
  (sc.name, sc.isLocal)

/-- Keys of a synced-client list. -/
def syncedKeys (l : List SyncedClient) : List (String × Bool) :=
  l.map syncedKey

/-- A mutation of the synced-client list reachable from the collaborator
interface: upsert or removal. -/
inductive SyncedOp where
  | addOrUpdate (name : String) (isLocal : Bool) (servers : Option (List String))
  | remove (name : String) (isLocal : Bool)

/-- Applying one synced-client mutation. -/
def applySyncedOp (c : Config) : SyncedOp → Config
  | .addOrUpdate n b sv => c.addSyncedClient n b sv
  | .remove n b => c.removeSyncedClient n b

/-- Applying a sequence of synced-client mutations. -/
def applySyncedOps (c : Config) (ops : List SyncedOp) : Config :=
  ops.foldl applySyncedOp c

/-- The store of the C4 scenario: servers `a` and `c` remain after server
`gone` was removed; three synced-client records, the second of which still
references `gone`. -/
def batchDemoConfig : Config :=
  (Config.removeServer
    ⟨[⟨"a", "stdio", "cmdA", [], [], "", []⟩,
      ⟨"gone", "stdio", "cmdG", [], [], "", []⟩,
      ⟨"c", "stdio", "cmdC", [], [], "", []⟩],
     [⟨"cursor", false, none⟩,
      ⟨"zed", false, some ["gone"]⟩,
      ⟨"codex", false, some ["c"]⟩], "/cfg"⟩ "gone").1

/-- The environment of the C4 scenario: all three clients registered and
their adapters succeeding. -/
def batchDemoEnv : ResyncEnv :=
  ⟨["cursor", "zed", "codex", "claude-code"], fun _ _ => .ok "/written"⟩

/-- Server record used by the concrete TOML-adapter inputs. -/
def codexDemoServer : MCPServer := ⟨"x", "stdio", "c", [], [], "", []⟩

/-! ## Supporting lemmas and claim-level theorems -/

lemma tomlSplitLines_cons_ne (c : Char) (rest : List Char) (h : c ≠ '\n') :
    tomlSplitLines (c :: rest) =
      match tomlSplitLines rest with
      | [] => [[c]]
      | l :: ls => (c :: l) :: ls := by
  rw [tomlSplitLines.eq_def]
  split
  · simp_all
  · simp_all
  · rename_i heq
    injection heq with h1 h2
    subst h1
    subst h2
    rfl

lemma tomlSplitLines_clean (a : List Char) (hnl : '\n' ∉ a) (hne : a ≠ []) :
    tomlSplitLines a = [a] := by
  induction a with
  | nil => exact absurd rfl hne
  | cons c a ih =>
    have hc : c ≠ '\n' := fun h => hnl (h ▸ List.mem_cons_self c a)
    have hnl' : '\n' ∉ a := fun h => hnl (List.mem_cons_of_mem c h)
    rw [tomlSplitLines_cons_ne c a hc]
    cases ha : a with
    | nil => simp [tomlSplitLines]
    | cons x xs =>
      rw [← ha, ih hnl' (by simp [ha])]

lemma tomlSplitLines_line_cons (a : List Char) (hnl : '\n' ∉ a) :
    ∀ b, tomlSplitLines (a ++ '\n' :: b) = a :: tomlSplitLines b := by
  induction a with
  | nil => intro b; rfl
  | cons c a ih =>
    intro b
    have hc : c ≠ '\n' := fun h => hnl (h ▸ List.mem_cons_self c a)
    have hnl' : '\n' ∉ a := fun h => hnl (List.mem_cons_of_mem c h)
    rw [List.cons_append, tomlSplitLines_cons_ne c _ hc, ih hnl' b]

lemma tomlSplitLines_ne_nil (s : List Char) (h : s ≠ []) :
    tomlSplitLines s ≠ [] := by
  cases s with
  | nil => exact absurd rfl h
  | cons c rest =>
    by_cases hc : c = '\n'
    · subst hc; simp [tomlSplitLines]
    · rw [tomlSplitLines_cons_ne c rest hc]
      cases tomlSplitLines rest <;> simp

lemma tomlSplitLines_term_append (a : List Char) :
    ∀ b, tomlSplitLines (a ++ '\n' :: b) =
      tomlSplitLines (a ++ ['\n']) ++ tomlSplitLines b := by
  induction a with
  | nil => intro b; rfl
  | cons c a ih =>
    intro b
    by_cases hc : c = '\n'
    · subst hc
      simp only [List.cons_append, tomlSplitLines, List.append_eq, ih b]
    · rw [List.cons_append, tomlSplitLines_cons_ne c _ hc,
        List.cons_append, tomlSplitLines_cons_ne c _ hc]
      have h1 : tomlSplitLines (a ++ '\n' :: b) ≠ [] :=
        tomlSplitLines_ne_nil _ (by simp)
      have h2 : tomlSplitLines (a ++ ['\n']) ≠ [] :=
        tomlSplitLines_ne_nil _ (by simp)
      rw [ih b]
      cases hs : tomlSplitLines (a ++ ['\n']) with
      | nil => exact absurd hs h2
      | cons l ls => simp

lemma tomlJoinLines_append_last (X : List (List Char)) (l : List Char) (hX : X ≠ []) :
    tomlJoinLines (X ++ [l]) = tomlJoinLines X ++ '\n' :: l := by
  induction X with
  | nil => exact absurd rfl hX
  | cons k K ih =>
    cases K with
    | nil => simp [tomlJoinLines]
    | cons k2 K2 =>
      have h2 : tomlJoinLines ((k2 :: K2) ++ [l]) = tomlJoinLines (k2 :: K2) ++ '\n' :: l :=
        ih (by simp)
      rw [List.cons_append] at h2
      simp only [List.cons_append, tomlJoinLines, List.append_eq]
      rw [h2]
      simp [List.append_assoc]

lemma tomlSplitLines_blank (r : List Char) (hr : ∀ ch ∈ r, ch = '\n') :
    ∀ l ∈ tomlSplitLines r, l = [] := by
  induction r with
  | nil => simp [tomlSplitLines]
  | cons c r ih =>
    have hc : c = '\n' := hr c (List.mem_cons_self c r)
    subst hc
    intro l hl
    simp only [tomlSplitLines] at hl
    rcases List.mem_cons.mp hl with h | h
    · exact h
    · exact ih (fun ch hch => hr ch (List.mem_cons_of_mem _ hch)) l h

lemma splitJoinPad_sub (r : List Char) (hr : ∀ ch ∈ r, ch = '\n') :
    ∀ (K : List (List Char)), (∀ l ∈ K, '\n' ∉ l) →
      ∀ l ∈ tomlSplitLines (tomlJoinLines K ++ r), l ∈ K ∨ l = [] := by
  intro K
  induction K with
  | nil =>
    intro _ l hl
    exact Or.inr (tomlSplitLines_blank r hr l (by simpa [tomlJoinLines] using hl))
  | cons k K ih =>
    intro hK l hl
    cases K with
    | nil =>
      simp only [tomlJoinLines] at hl
      by_cases hkn : k = []
      · subst hkn
        exact Or.inr (tomlSplitLines_blank r hr l (by simpa using hl))
      · cases r with
        | nil =>
          rw [List.append_nil,
            tomlSplitLines_clean k (hK k (List.mem_cons_self k [])) hkn] at hl
          simp only [List.mem_singleton] at hl
          exact Or.inl (by simp [hl])
        | cons c2 r2 =>
          have hc2 : c2 = '\n' := hr c2 (List.mem_cons_self c2 r2)
          subst hc2
          rw [tomlSplitLines_line_cons k (hK k (List.mem_cons_self k [])) r2] at hl
          rcases List.mem_cons.mp hl with h | h
          · exact Or.inl (by simp [h])
          · exact Or.inr (tomlSplitLines_blank r2
              (fun ch hch => hr ch (List.mem_cons_of_mem _ hch)) l h)
    | cons k2 K2 =>
      simp only [tomlJoinLines] at hl
      rw [List.append_assoc, List.cons_append,
        tomlSplitLines_line_cons k (hK k (List.mem_cons_self _ _)) _] at hl
      rcases List.mem_cons.mp hl with h | h
      · exact Or.inl (by simp [h])
      · rcases ih (fun x hx => hK x (List.mem_cons_of_mem _ hx)) l h with h2 | h2
        · exact Or.inl (List.mem_cons_of_mem _ h2)
        · exact Or.inr h2

lemma trim_cons (c : Char) (l : List Char) (h1 : c ≠ ' ') (h2 : c ≠ '\t') :
    tomlTrimWhitespace (c :: l) =
      c :: (l.reverse.dropWhile (fun c => c = ' ' ∨ c = '\t')).reverse := by
  unfold tomlTrimWhitespace
  have hds : (c :: l).dropWhile (fun c => decide (c = ' ' ∨ c = '\t')) = c :: l := by
    rw [List.dropWhile_cons]
    simp [h1, h2]
  rw [hds, List.reverse_cons, List.dropWhile_append]
  by_cases he : (l.reverse.dropWhile (fun c => decide (c = ' ' ∨ c = '\t'))).isEmpty
  · rw [if_pos he]
    rw [List.isEmpty_iff] at he
    rw [he]
    simp [List.dropWhile_cons, h1, h2]
  · rw [if_neg he]
    simp

lemma isMcpHeader_cons_false (c : Char) (l : List Char)
    (hb : c ≠ '[') (h1 : c ≠ ' ') (h2 : c ≠ '\t') :
    isMcpHeader (c :: l) = false ∧ startsBracket (c :: l) = false := by
  rw [isMcpHeader, startsBracket, trim_cons c l h1 h2]
  constructor
  · show ('[' :: _).isPrefixOf (c :: _) = false
    simp [List.isPrefixOf, Ne.symm hb]
  · show ['['].isPrefixOf (c :: _) = false
    simp [List.isPrefixOf, Ne.symm hb]

lemma trim_header_self (X : List Char) :
    tomlTrimWhitespace ('[' :: X ++ [']']) = '[' :: X ++ [']'] := by
  rw [List.cons_append, trim_cons '[' (X ++ [']']) (by decide) (by decide)]
  rw [List.reverse_append]
  simp only [List.reverse_cons, List.reverse_nil, List.nil_append, List.singleton_append]
  rw [List.dropWhile_cons]
  simp

lemma isMcpHeader_header (name : List Char) :
    isMcpHeader ("[mcp_servers.".toList ++ name ++ [']']) = true := by
  have h0 : "[mcp_servers.".toList = '[' :: "mcp_servers.".toList := by decide
  have htrim : tomlTrimWhitespace ("[mcp_servers.".toList ++ name ++ [']']) =
      "[mcp_servers.".toList ++ name ++ [']'] := by
    rw [h0]
    have hsh : ('[' :: "mcp_servers.".toList) ++ name ++ [']'] =
        '[' :: ("mcp_servers.".toList ++ name) ++ [']'] := by
      simp [List.cons_append, List.append_assoc]
    rw [hsh]
    exact trim_header_self _
  rw [isMcpHeader, tomlHasPrefix, htrim, List.append_assoc,
    List.isPrefixOf_iff_prefix]
  exact List.prefix_append _ _

lemma lineText_append (A B : List (List Char)) :
    lineText (A ++ B) = lineText A ++ lineText B := by
  simp [lineText, List.flatten_append]

lemma tomlSplitLines_lineText (ls : List (List Char))
    (h : ∀ l ∈ ls, '\n' ∉ l) :
    ∀ r, tomlSplitLines (lineText ls ++ r) = ls ++ tomlSplitLines r := by
  induction ls with
  | nil => intro r; simp [lineText]
  | cons l ls ih =>
    intro r
    have : lineText (l :: ls) ++ r = l ++ '\n' :: (lineText ls ++ r) := by
      simp [lineText]
    rw [this, tomlSplitLines_line_cons l (h l (List.mem_cons_self _ _)),
      ih (fun x hx => h x (List.mem_cons_of_mem _ hx)) r]
    rfl

lemma filterMcpLines_no_header :
    ∀ (b : Bool) (ls : List (List Char)), ∀ l ∈ filterMcpLines b ls,
      isMcpHeader l = false := by
  intro b ls
  induction ls generalizing b with
  | nil => simp [filterMcpLines]
  | cons x ls ih =>
    intro l hl
    simp only [filterMcpLines] at hl
    by_cases hx : isMcpHeader x
    · rw [if_pos hx] at hl
      exact ih true l hl
    · rw [if_neg hx] at hl
      cases b with
      | false =>
        simp only [Bool.false_eq_true, if_false] at hl
        rcases List.mem_cons.mp hl with h | h
        · exact h ▸ (Bool.not_eq_true _).mp hx
        · exact ih false l h
      | true =>
        simp only [if_true] at hl
        by_cases hbr : startsBracket x
        · rw [if_pos hbr] at hl
          rcases List.mem_cons.mp hl with h | h
          · exact h ▸ (Bool.not_eq_true _).mp hx
          · exact ih false l h
        · rw [if_neg hbr] at hl
          exact ih true l hl


lemma mem_syncedKeys_addSyncedClientList (n : String) (b : Bool)
    (sv : Option (List String)) :
    ∀ (l : List SyncedClient), ∀ x ∈ syncedKeys (addSyncedClientList n b sv l),
      x ∈ syncedKeys l ∨ x = (n, b) := by
  intro l
  induction l with
  | nil =>
    intro x hx
    simp [addSyncedClientList, syncedKeys, syncedKey] at hx
    exact Or.inr hx
  | cons sc rest ih =>
    intro x hx
    simp only [addSyncedClientList] at hx
    by_cases h : (sc.name == n && sc.isLocal == b) = true
    · rw [if_pos h] at hx
      simp only [syncedKeys, List.map_cons, List.mem_cons] at hx ⊢
      rcases hx with hx | hx
      · exact Or.inl (Or.inl hx)
      · exact Or.inl (Or.inr hx)
    · rw [if_neg h] at hx
      simp only [syncedKeys, List.map_cons, List.mem_cons] at hx ⊢
      rcases hx with hx | hx
      · exact Or.inl (Or.inl hx)
      · rcases ih x hx with h' | h'
        · exact Or.inl (Or.inr h')
        · exact Or.inr h'

lemma nodup_syncedKeys_addSyncedClientList (n : String) (b : Bool)
    (sv : Option (List String)) :
    ∀ (l : List SyncedClient), (syncedKeys l).Nodup →
      (syncedKeys (addSyncedClientList n b sv l)).Nodup := by
  intro l
  induction l with
  | nil =>
    intro _
    simp [addSyncedClientList, syncedKeys, syncedKey]
  | cons sc rest ih =>
    intro h
    simp only [syncedKeys, List.map_cons, List.nodup_cons] at h
    simp only [addSyncedClientList]
    by_cases hm : (sc.name == n && sc.isLocal == b) = true
    · rw [if_pos hm]
      simpa [syncedKeys, syncedKey, List.nodup_cons] using h
    · rw [if_neg hm]
      simp only [syncedKeys, List.map_cons, List.nodup_cons]
      refine ⟨?_, ih h.2⟩
      intro hmem
      rcases mem_syncedKeys_addSyncedClientList n b sv rest _ hmem with h' | h'
      · exact h.1 h'
      · apply hm
        have h1 : sc.name = n := congrArg Prod.fst h'
        have h2 : sc.isLocal = b := congrArg Prod.snd h'
        simp [syncedKey] at h1 h2
        simp [h1, h2]

lemma removeSyncedClientList_sublist (n : String) (b : Bool) :
    ∀ (l : List SyncedClient), List.Sublist (removeSyncedClientList n b l) l := by
  intro l
  induction l with
  | nil => simp [removeSyncedClientList]
  | cons sc rest ih =>
    simp only [removeSyncedClientList]
    by_cases hm : (sc.name == n && sc.isLocal == b) = true
    · rw [if_pos hm]
      exact List.sublist_cons_self sc rest
    · rw [if_neg hm]
      exact List.Sublist.cons₂ sc ih

lemma nodup_syncedKeys_removeSyncedClientList (n : String) (b : Bool)
    (l : List SyncedClient) (h : (syncedKeys l).Nodup) :
    (syncedKeys (removeSyncedClientList n b l)).Nodup :=
  h.sublist (List.Sublist.map syncedKey (removeSyncedClientList_sublist n b l))

/-- C9: starting from pairwise-distinct (name, local) keys, any sequence of
upserts and removals of synced-client records preserves that uniqueness:
the upsert overwrites the `servers` field of an existing key instead of
appending a duplicate, and removal only deletes. -/
theorem syncedClient_keys_unique (c : Config) (ops : List SyncedOp)
    (h : (syncedKeys c.syncedClients).Nodup) :
    (syncedKeys (applySyncedOps c ops).syncedClients).Nodup := by
  induction ops generalizing c with
  | nil => exact h
  | cons op rest ih =>
    have hstep : (syncedKeys (applySyncedOp c op).syncedClients).Nodup := by
      cases op with
      | addOrUpdate n b sv =>
        exact nodup_syncedKeys_addSyncedClientList n b sv _ h
      | remove n b =>
        exact nodup_syncedKeys_removeSyncedClientList n b _ h
    exact ih _ hstep

/-- Witness for C9 at a concrete store and operation sequence that
exercises both an overwriting upsert and a removal. -/
theorem syncedClient_keys_unique_witness :
    (syncedKeys (applySyncedOps
      ⟨[], [⟨"cursor", false, none⟩, ⟨"cursor", true, some ["a"]⟩], "/p"⟩
      [.addOrUpdate "cursor" false (some ["b"]), .addOrUpdate "zed" false none,
       .remove "cursor" true, .addOrUpdate "zed" false (some [])]).syncedClients).Nodup :=
  syncedClient_keys_unique _ _ (by decide)

/-- C5: adding a server whose name is already present fails with
already-exists and returns the store unchanged; adding a fresh name appends
it at the end, keeping all prior records in order. -/
theorem addServer_uniqueness (c : Config) (s : MCPServer) :
    ((∃ s' ∈ c.servers, s'.name = s.name) →
      c.addServer s = (c, some (ConfigError.alreadyExists s.name))) ∧
    ((∀ s' ∈ c.servers, s'.name ≠ s.name) →
      c.addServer s = ({ c with servers := c.servers ++ [s] }, none)) := by
  constructor
  · rintro ⟨s', hmem, hname⟩
    have hany : c.servers.any (fun x => x.name == s.name) = true :=
      List.any_eq_true.mpr ⟨s', hmem, beq_iff_eq.mpr hname⟩
    simp [Config.addServer, hany]
  · intro h
    have hany : c.servers.any (fun x => x.name == s.name) = false := by
      rw [Bool.eq_false_iff]
      intro hc
      rcases List.any_eq_true.mp hc with ⟨s', hmem, hbeq⟩
      exact h s' hmem (beq_iff_eq.mp hbeq)
    simp [Config.addServer, hany]

/-- Witness for C5: a duplicate add is rejected without change, a fresh add
appends. -/
theorem addServer_uniqueness_witness :
    (Config.addServer ⟨[⟨"fs", "stdio", "npx", [], [], "", []⟩], [], "/p"⟩
        ⟨"fs", "http", "", [], [], "https://x", []⟩ =
      (⟨[⟨"fs", "stdio", "npx", [], [], "", []⟩], [], "/p"⟩,
        some (ConfigError.alreadyExists "fs"))) ∧
    (Config.addServer ⟨[⟨"fs", "stdio", "npx", [], [], "", []⟩], [], "/p"⟩
        ⟨"api", "http", "", [], [], "https://x", []⟩ =
      (⟨[⟨"fs", "stdio", "npx", [], [], "", []⟩,
         ⟨"api", "http", "", [], [], "https://x", []⟩], [], "/p"⟩, none)) :=
  ⟨(addServer_uniqueness _ _).1 ⟨⟨"fs", "stdio", "npx", [], [], "", []⟩, by decide, rfl⟩,
   (addServer_uniqueness _ _).2 (by decide)⟩

/-- C10: in the resync-all loop, a record with an explicitly empty server
list resolves to all stored servers, exactly as a record with the field
unset, and the whole per-record step behaves identically for the two. -/
theorem resync_emptyList_eq_unset (env : ResyncEnv) (cfg : Config)
    (name : String) (b : Bool) :
    resolveServers cfg ⟨name, b, some []⟩ = (cfg.listServers, []) ∧
    resyncStep env cfg ⟨name, b, some []⟩ = resyncStep env cfg ⟨name, b, none⟩ := by
  constructor
  · rfl
  · rfl

/-- C7: loading a missing file yields the empty aggregate bound to the
path; text that is not well-formed JSON, or JSON that json.Unmarshal
rejects for the Config shape, is a parse error; any other read failure is
an I/O error; a file holding a top-level JSON null is accepted (Unmarshal
leaves the zero value) and loads as the empty aggregate; accepted content
loads and is bound to the path. -/
theorem load_error_taxonomy (path : String) :
    (loadFromPath path .missing = .ok ⟨[], [], path⟩) ∧
    (loadFromPath path .readError = .error .ioError) ∧
    (loadFromPath path (.content none) = .error .parseError) ∧
    (loadFromPath path (.content (some .null)) = .ok ⟨[], [], path⟩) ∧
    (∀ j, decodeConfig j = none →
      loadFromPath path (.content (some j)) = .error .parseError) ∧
    (∀ j c, decodeConfig j = some c →
      loadFromPath path (.content (some j)) = .ok { c with path := path }) := by
  refine ⟨rfl, rfl, rfl, rfl, ?_, ?_⟩
  · intro j hj
    simp [loadFromPath, hj]
  · intro j c hj
    simp [loadFromPath, hj]

/-- Witness for C7: a first run with no config file succeeds with the empty
aggregate, a document of the wrong shape is a parse error, and a file
holding JSON null loads as the empty aggregate. -/
theorem load_error_taxonomy_witness :
    (loadFromPath "/home/u/.config/mcpr/config.json" .missing =
      .ok ⟨[], [], "/home/u/.config/mcpr/config.json"⟩) ∧
    (loadFromPath "/p" (.content (some (.num 5))) = .error .parseError) ∧
    (loadFromPath "/p" (.content (some .null)) = .ok ⟨[], [], "/p"⟩) :=
  ⟨(load_error_taxonomy _).1, (load_error_taxonomy "/p").2.2.2.2.1 (.num 5) rfl,
   (load_error_taxonomy "/p").2.2.2.1⟩

/-- C4: with three synced-client records whose second references a server
name that was since removed, resync-all updates records one and three,
exactly one record fails — the second — every reported error is attributed
to it, and all three records are processed (no abort). -/
theorem resyncAll_batch_resilience :
    resyncSuccesses (resyncAll batchDemoEnv batchDemoConfig) = ["cursor", "codex"] ∧
    resyncFailures (resyncAll batchDemoEnv batchDemoConfig) = ["zed"] ∧
    resyncErrors (resyncAll batchDemoEnv batchDemoConfig) =
      ["zed: server \"gone\" not found", "zed: no servers to sync"] ∧
    (resyncAll batchDemoEnv batchDemoConfig).length =
      batchDemoConfig.syncedClients.length := by
  decide

lemma lookup_setKey_ne (k' k : String) (v : Json) (h : k' ≠ k) :
    ∀ (l : List (String × Json)), (setKey k v l).lookup k' = l.lookup k' := by
  have hb : (k' == k) = false := by
    cases hq : k' == k with
    | false => rfl
    | true => exact absurd (beq_iff_eq.mp hq) h
  intro l
  induction l with
  | nil => simp [setKey, List.lookup, hb]
  | cons ab rest ih =>
    obtain ⟨a, b⟩ := ab
    simp only [setKey]
    by_cases h1 : strLt k a = true
    · rw [if_pos h1]
      simp [List.lookup, hb]
    · rw [if_neg h1]
      by_cases h2 : k = a
      · rw [if_pos h2]
        subst h2
        simp [List.lookup, hb]
      · rw [if_neg h2]
        simp only [List.lookup, ih]

/-- C2: every key-merge adapter rewrites exactly its designated top-level
key; any other key of the pre-existing settings tree keeps its binding
(present with an unmodified value, absent stays absent). -/
theorem mergeAdapters_preserve_foreign_keys (S : List MCPServer)
    (t : List (String × Json)) (k : String) :
    (∀ key, k ≠ key → (syncToSettingsWithKey S key t).lookup k = t.lookup k) ∧
    (k ≠ "mcpServers" → (syncToSettingsWithMcpServers S t).lookup k = t.lookup k) ∧
    (k ≠ "mcpServers" → (syncToClaudeCode S t).lookup k = t.lookup k) ∧
    (k ≠ "context_servers" → (syncToZed S t).lookup k = t.lookup k) ∧
    (k ≠ "mcp" → (syncToOpenCode S t).lookup k = t.lookup k) ∧
    (k ≠ "mcpServers" → (syncToContinue S t).lookup k = t.lookup k) :=
  ⟨fun _ h => lookup_setKey_ne _ _ _ h t,
   fun h => lookup_setKey_ne _ _ _ h t,
   fun h => lookup_setKey_ne _ _ _ h t,
   fun h => lookup_setKey_ne _ _ _ h t,
   fun h => lookup_setKey_ne _ _ _ h t,
   fun h => lookup_setKey_ne _ _ _ h t⟩

/-- Witness for C2: the spec scenario — a pre-existing `theme` key survives
each merge adapter unchanged. -/
theorem mergeAdapters_preserve_foreign_keys_witness :
    ((syncToSettingsWithKey [⟨"fs", "stdio", "npx", ["-y", "pkg", "/tmp"], [], "", []⟩]
        "mcpServers" [("theme", .str "dark")]).lookup "theme" =
      [(("theme" : String), Json.str "dark")].lookup "theme") ∧
    ((syncToZed [⟨"api", "http", "", [], [], "https://x/mcp", []⟩]
        [("theme", .str "dark")]).lookup "theme" =
      [(("theme" : String), Json.str "dark")].lookup "theme") :=
  ⟨(mergeAdapters_preserve_foreign_keys _ _ _).1 "mcpServers" (by decide),
   (mergeAdapters_preserve_foreign_keys _ _ _).2.2.2.1 (by decide)⟩

lemma decodeStrPairs_map : ∀ (m : List (String × String)),
    decodeStrPairs (m.map fun kv => (kv.1, Json.str kv.2)) = some m := by
  intro m
  induction m with
  | nil => rfl
  | cons kv rest ih => simp [decodeStrPairs, ih]

lemma decodeStrElems_map : ∀ (l : List String),
    decodeStrElems (l.map Json.str) = some l := by
  intro l
  induction l with
  | nil => rfl
  | cons s rest ih => simp [decodeStrElems, ih]

lemma mergeStrMap_nil (l : List (String × String)) :
    mergeStrMap [] l = mkStrMap l :=
  rfl

lemma decodeServer_encodeServer (s : MCPServer)
    (henv : mkStrMap s.env = s.env) (hhead : mkStrMap s.headers = s.headers) :
    decodeServer (encodeServer s) = some s := by
  obtain ⟨name, type, command, args, env, url, headers⟩ := s
  simp only at henv hhead
  by_cases hc : command = "" <;> by_cases ha : args = [] <;>
    by_cases he : env = [] <;> by_cases hu : url = "" <;>
    by_cases hh : headers = [] <;>
  simp +decide [encodeServer, decodeServer, decodeStrField, decodeStrFieldFrom,
    decodeStrListField, decodeStrListFrom, decodeStrMapField, decodeStrMapFrom,
    mergeStrMap_nil, encodeStrMap, hc, ha, he, hu, hh,
    decodeStrPairs_map, decodeStrElems_map, henv, hhead]

lemma decodeSyncedClient_encodeSyncedClient (sc : SyncedClient)
    (h : sc.servers ≠ some []) :
    decodeSyncedClient (encodeSyncedClient sc) = some sc := by
  obtain ⟨name, isLocal, servers⟩ := sc
  simp only at h
  match servers with
  | none =>
    simp +decide [encodeSyncedClient, decodeSyncedClient, decodeStrField,
      decodeStrFieldFrom, decodeBoolField, decodeBoolFieldFrom,
      decodeStrListField, decodeStrListFrom]
  | some l =>
    have hl : l ≠ [] := fun he => h (by rw [he])
    simp +decide [encodeSyncedClient, decodeSyncedClient, decodeStrField,
      decodeStrFieldFrom, decodeBoolField, decodeBoolFieldFrom,
      decodeStrListField, decodeStrListFrom, hl, decodeStrElems_map]

lemma decodeList_map {α : Type} (dec : Json → Option α) (enc : α → Json) :
    ∀ (l : List α), (∀ x ∈ l, dec (enc x) = some x) →
      decodeList dec (l.map enc) = some l := by
  intro l
  induction l with
  | nil => intro _; rfl
  | cons x rest ih =>
    intro h
    simp only [List.map_cons, decodeList, h x (List.mem_cons_self x rest),
      ih (fun y hy => h y (List.mem_cons_of_mem x hy)), Option.bind_eq_bind,
      Option.some_bind]

lemma decodeConfig_encodeConfig (c : Config)
    (hmaps : ∀ s ∈ c.servers, mkStrMap s.env = s.env ∧ mkStrMap s.headers = s.headers)
    (hsc : ∀ sc ∈ c.syncedClients, sc.servers ≠ some []) :
    decodeConfig (encodeConfig c) = some ⟨c.servers, c.syncedClients, ""⟩ := by
  have hsrv : decodeList decodeServer (c.servers.map encodeServer) = some c.servers :=
    decodeList_map _ _ _ (fun s hs =>
      decodeServer_encodeServer s (hmaps s hs).1 (hmaps s hs).2)
  have hsyn : decodeList decodeSyncedClient
      (c.syncedClients.map encodeSyncedClient) = some c.syncedClients :=
    decodeList_map _ _ _ (fun sc hm =>
      decodeSyncedClient_encodeSyncedClient sc (hsc sc hm))
  by_cases h : c.syncedClients = []
  · simp +decide [encodeConfig, decodeConfig, decodeArrField, decodeArrFrom,
      h, hsrv]
  · simp +decide [encodeConfig, decodeConfig, decodeArrField, decodeArrFrom,
      h, hsrv, hsyn]

/-- C6 (amended): saving an aggregate to its bound path and loading it back
yields a structurally equal aggregate — same servers in order, same
synced-client records, same field values, empty or absent args/env/headers
staying empty — provided no synced-client record carries an explicitly
present empty server list (an explicit empty list is saved with the field
omitted and loads back as unset).  The env/headers hypotheses say the maps
are in canonical Go-map form, which every aggregate built from Go maps
satisfies. -/
theorem saveLoad_roundTrip (c : Config) (globalPath : String)
    (hpath : c.path ≠ "")
    (hmaps : ∀ s ∈ c.servers, mkStrMap s.env = s.env ∧ mkStrMap s.headers = s.headers)
    (hsc : ∀ sc ∈ c.syncedClients, sc.servers ≠ some []) :
    loadFromPath (c.savePath globalPath) (.content (some c.saveDoc)) = .ok c := by
  have hp : c.savePath globalPath = c.path := if_neg hpath
  rw [hp]
  simp [Config.saveDoc, loadFromPath, decodeConfig_encodeConfig c hmaps hsc]

/-- Witness for C6 at an aggregate with both server kinds, a restricted and
an unrestricted synced-client record, and empty as well as non-empty
optional fields. -/
theorem saveLoad_roundTrip_witness :
    loadFromPath
      (Config.savePath
        ⟨[⟨"fs", "stdio", "npx", ["-y", "pkg", "/tmp"], [("A", "1"), ("B", "2")], "", []⟩,
          ⟨"api", "http", "", [], [], "https://x/mcp", [("Authorization", "Bearer t")]⟩],
         [⟨"claude-code", false, none⟩, ⟨"cursor", true, some ["fs"]⟩], "/p"⟩ "/g")
      (.content (some (Config.saveDoc
        ⟨[⟨"fs", "stdio", "npx", ["-y", "pkg", "/tmp"], [("A", "1"), ("B", "2")], "", []⟩,
          ⟨"api", "http", "", [], [], "https://x/mcp", [("Authorization", "Bearer t")]⟩],
         [⟨"claude-code", false, none⟩, ⟨"cursor", true, some ["fs"]⟩], "/p"⟩))) =
    .ok ⟨[⟨"fs", "stdio", "npx", ["-y", "pkg", "/tmp"], [("A", "1"), ("B", "2")], "", []⟩,
          ⟨"api", "http", "", [], [], "https://x/mcp", [("Authorization", "Bearer t")]⟩],
         [⟨"claude-code", false, none⟩, ⟨"cursor", true, some ["fs"]⟩], "/p"⟩ :=
  saveLoad_roundTrip _ "/g" (by decide) (by decide) (by decide)

/-- Counterexample for C6 as stated: an aggregate whose synced-client
record holds an explicitly empty server list does not round-trip
structurally — the field is dropped by `omitempty` on save and loads back
as unset. -/
theorem saveLoad_roundTrip_counterexample :
    loadFromPath
      (Config.savePath ⟨[], [⟨"cursor", false, some []⟩], "/p"⟩ "/g")
      (.content (some (Config.saveDoc ⟨[], [⟨"cursor", false, some []⟩], "/p"⟩))) ≠
    .ok ⟨[], [⟨"cursor", false, some []⟩], "/p"⟩ := by
  decide


lemma tomlSplitLines_no_newline :
    ∀ (s : List Char), ∀ l ∈ tomlSplitLines s, '\n' ∉ l := by
  intro s
  induction s with
  | nil => simp [tomlSplitLines]
  | cons c rest ih =>
    intro l hl
    by_cases hc : c = '\n'
    · subst hc
      simp only [tomlSplitLines] at hl
      rcases List.mem_cons.mp hl with h | h
      · simp [h]
      · exact ih l h
    · rw [tomlSplitLines_cons_ne c rest hc] at hl
      cases hs : tomlSplitLines rest with
      | nil =>
        rw [hs] at hl
        simp only [List.mem_singleton] at hl
        subst hl
        simp [Ne.symm hc]
      | cons x xs =>
        rw [hs] at hl
        rcases List.mem_cons.mp hl with h | h
        · subst h
          intro hmem
          rcases List.mem_cons.mp hmem with h2 | h2
          · exact hc h2.symm
          · exact ih x (hs ▸ List.mem_cons_self x xs) h2
        · exact ih l (hs ▸ List.mem_cons_of_mem x h)

lemma filterMcpLines_mem :
    ∀ (b : Bool) (ls : List (List Char)), ∀ l ∈ filterMcpLines b ls, l ∈ ls := by
  intro b ls
  induction ls generalizing b with
  | nil => simp [filterMcpLines]
  | cons x ls ih =>
    intro l hl
    simp only [filterMcpLines] at hl
    by_cases hx : isMcpHeader x
    · rw [if_pos hx] at hl
      exact List.mem_cons_of_mem x (ih true l hl)
    · rw [if_neg hx] at hl
      cases b with
      | false =>
        simp only [Bool.false_eq_true, if_false] at hl
        rcases List.mem_cons.mp hl with h | h
        · exact h ▸ List.mem_cons_self x ls
        · exact List.mem_cons_of_mem x (ih false l h)
      | true =>
        simp only [if_true] at hl
        by_cases hbr : startsBracket x
        · rw [if_pos hbr] at hl
          rcases List.mem_cons.mp hl with h | h
          · exact h ▸ List.mem_cons_self x ls
          · exact List.mem_cons_of_mem x (ih false l h)
        · rw [if_neg hbr] at hl
          exact List.mem_cons_of_mem x (ih true l hl)

lemma hexDigit_ne_newline (n : Nat) : hexDigit n ≠ '\n' := by
  rw [hexDigit, List.getD_eq_getElem?_getD]
  cases hx : "0123456789abcdef".toList[n]? with
  | none => simp
  | some c =>
    have hc : c ∈ "0123456789abcdef".toList := List.getElem?_mem hx
    simp only [Option.getD_some]
    intro h
    subst h
    revert hc
    decide

lemma goQuoteChar_no_newline (c : Char) : '\n' ∉ goQuoteChar c := by
  unfold goQuoteChar
  by_cases h1 : c = '"'
  · simp [h1]
  · rw [if_neg h1]
    by_cases h2 : c = '\\'
    · simp [h2]
    · rw [if_neg h2]
      by_cases h3 : c = '\n'
      · simp [h3]
      · rw [if_neg h3]
        by_cases h4 : c = '\t'
        · simp [h4]
        · rw [if_neg h4]
          by_cases h5 : c = '\r'
          · simp [h5]
          · rw [if_neg h5]
            by_cases h6 : c = Char.ofNat 7
            · simp [h6]
            · rw [if_neg h6]
              by_cases h7 : c = Char.ofNat 8
              · simp [h7]
              · rw [if_neg h7]
                by_cases h8 : c = Char.ofNat 12
                · simp [h8]
                · rw [if_neg h8]
                  by_cases h9 : c = Char.ofNat 11
                  · simp [h9]
                  · rw [if_neg h9]
                    by_cases h10 : c.toNat < 32 ∨ c.toNat = 127
                    · rw [if_pos h10]
                      intro hm
                      rcases List.mem_cons.mp hm with h | h
                      · exact absurd h.symm (by decide)
                      rcases List.mem_cons.mp h with h | h
                      · exact absurd h.symm (by decide)
                      rcases List.mem_cons.mp h with h | h
                      · exact hexDigit_ne_newline _ h.symm
                      rcases List.mem_cons.mp h with h | h
                      · exact hexDigit_ne_newline _ h.symm
                      · simp at h
                    · rw [if_neg h10]
                      simp [Ne.symm h3]

lemma goQuote_no_newline (s : String) : '\n' ∉ goQuote s := by
  unfold goQuote
  intro h
  rcases List.mem_cons.mp h with h | h
  · exact absurd h.symm (by decide)
  rcases List.mem_append.mp h with h | h
  · rcases List.mem_flatten.mp h with ⟨piece, hp, hmem⟩
    rcases List.mem_map.mp hp with ⟨c, _, hc⟩
    exact goQuoteChar_no_newline c (hc ▸ hmem)
  · simp at h

lemma no_nl_append {a b : List Char} (ha : '\n' ∉ a) (hb : '\n' ∉ b) :
    '\n' ∉ a ++ b :=
  fun h => (List.mem_append.mp h).elim ha hb

lemma commaJoin_no_newline (xs : List (List Char)) (h : ∀ x ∈ xs, '\n' ∉ x) :
    '\n' ∉ commaJoin xs := by
  induction xs with
  | nil => simp [commaJoin]
  | cons x xs ih =>
    cases xs with
    | nil => simpa [commaJoin] using h x (List.mem_cons_self x [])
    | cons y ys =>
      simp only [commaJoin]
      exact no_nl_append
        (no_nl_append (h x (List.mem_cons_self _ _)) (by decide))
        (ih (fun z hz => h z (List.mem_cons_of_mem _ hz)))

lemma inlinePairs_no_newline (m : List (String × String)) :
    '\n' ∉ inlinePairs m := by
  apply commaJoin_no_newline
  intro x hx
  rcases List.mem_map.mp hx with ⟨k, _, hk⟩
  subst hk
  exact no_nl_append (no_nl_append (goQuote_no_newline k) (by decide))
    (goQuote_no_newline _)

lemma inlineArgs_no_newline (args : List String) :
    '\n' ∉ inlineArgs args := by
  apply commaJoin_no_newline
  intro x hx
  rcases List.mem_map.mp hx with ⟨a, _, ha⟩
  exact ha ▸ goQuote_no_newline a

lemma sectionLines_clean (s : MCPServer) (hname : '\n' ∉ s.name.toList) :
    ∀ l ∈ sectionLines s, '\n' ∉ l := by
  have hhdr : '\n' ∉ "[mcp_servers.".toList ++ s.name.toList ++ [']'] :=
    no_nl_append (no_nl_append (by decide) hname) (by decide)
  have hurl : '\n' ∉ "url = ".toList ++ goQuote s.url :=
    no_nl_append (by decide) (goQuote_no_newline _)
  have hcmd : '\n' ∉ "command = ".toList ++ goQuote s.command :=
    no_nl_append (by decide) (goQuote_no_newline _)
  have hhd2 : '\n' ∉ "http_headers = \x7b ".toList ++ inlinePairs s.headers ++ " \x7d".toList :=
    no_nl_append (no_nl_append (by decide) (inlinePairs_no_newline _)) (by decide)
  have harg : '\n' ∉ "args = [".toList ++ inlineArgs s.args ++ [']'] :=
    no_nl_append (no_nl_append (by decide) (inlineArgs_no_newline _)) (by decide)
  have henv : '\n' ∉ "env = \x7b ".toList ++ inlinePairs s.env ++ " \x7d".toList :=
    no_nl_append (no_nl_append (by decide) (inlinePairs_no_newline _)) (by decide)
  intro l hl
  unfold sectionLines at hl
  by_cases ht : s.type = "http"
  · rw [if_pos ht] at hl
    by_cases hh : s.headers ≠ []
    · rw [if_pos hh] at hl
      rcases List.mem_append.mp hl with h | h
      · rcases List.mem_cons.mp h with h | h
        · exact h ▸ hhdr
        · exact (List.mem_singleton.mp h) ▸ hurl
      · exact (List.mem_singleton.mp h) ▸ hhd2
    · rw [if_neg hh, List.append_nil] at hl
      rcases List.mem_cons.mp hl with h | h
      · exact h ▸ hhdr
      · exact (List.mem_singleton.mp h) ▸ hurl
  · rw [if_neg ht] at hl
    rcases List.mem_append.mp hl with h | h
    · rcases List.mem_append.mp h with h | h
      · rcases List.mem_cons.mp h with h | h
        · exact h ▸ hhdr
        · exact (List.mem_singleton.mp h) ▸ hcmd
      · by_cases ha : s.args ≠ []
        · rw [if_pos ha] at h
          exact (List.mem_singleton.mp h) ▸ harg
        · rw [if_neg ha] at h
          exact absurd h (List.not_mem_nil l)
    · by_cases he : s.env ≠ []
      · rw [if_pos he] at h
        exact (List.mem_singleton.mp h) ▸ henv
      · rw [if_neg he] at h
        exact absurd h (List.not_mem_nil l)

lemma isMcpHeader_lit_false (c : Char) (pre post : List Char)
    (hb : c ≠ '[') (h1 : c ≠ ' ') (h2 : c ≠ '\t') :
    isMcpHeader ((c :: pre) ++ post) = false := by
  rw [List.cons_append]
  exact (isMcpHeader_cons_false c _ hb h1 h2).1

lemma isMcpHeader_url_false (s : String) :
    isMcpHeader ("url = ".toList ++ goQuote s) = false := by
  have h0 : "url = ".toList = 'u' :: "rl = ".toList := by decide
  rw [h0]
  exact isMcpHeader_lit_false 'u' _ _ (by decide) (by decide) (by decide)

lemma isMcpHeader_cmd_false (s : String) :
    isMcpHeader ("command = ".toList ++ goQuote s) = false := by
  have h0 : "command = ".toList = 'c' :: "ommand = ".toList := by decide
  rw [h0]
  exact isMcpHeader_lit_false 'c' _ _ (by decide) (by decide) (by decide)

lemma isMcpHeader_headers_false (m : List (String × String)) :
    isMcpHeader ("http_headers = \x7b ".toList ++ inlinePairs m ++ " \x7d".toList) = false := by
  have h0 : "http_headers = \x7b ".toList = 'h' :: "ttp_headers = \x7b ".toList := by decide
  rw [h0, List.cons_append]
  exact isMcpHeader_lit_false 'h' _ _ (by decide) (by decide) (by decide)

lemma isMcpHeader_args_false (args : List String) :
    isMcpHeader ("args = [".toList ++ inlineArgs args ++ [']']) = false := by
  have h0 : "args = [".toList = 'a' :: "rgs = [".toList := by decide
  rw [h0, List.cons_append]
  exact isMcpHeader_lit_false 'a' _ _ (by decide) (by decide) (by decide)

lemma isMcpHeader_env_false (m : List (String × String)) :
    isMcpHeader ("env = \x7b ".toList ++ inlinePairs m ++ " \x7d".toList) = false := by
  have h0 : "env = \x7b ".toList = 'e' :: "nv = \x7b ".toList := by decide
  rw [h0, List.cons_append]
  exact isMcpHeader_lit_false 'e' _ _ (by decide) (by decide) (by decide)

lemma filter_sectionLines (s : MCPServer) :
    (sectionLines s ++ [[]]).filter (fun l => isMcpHeader l) = [headerLineFor s] := by
  have hhdr := isMcpHeader_header s.name.toList
  have hurl := isMcpHeader_url_false s.url
  have hcmd := isMcpHeader_cmd_false s.command
  have hhd2 := isMcpHeader_headers_false s.headers
  have harg := isMcpHeader_args_false s.args
  have henv := isMcpHeader_env_false s.env
  have hblank : isMcpHeader ([] : List Char) = false := by decide
  unfold sectionLines headerLineFor
  by_cases ht : s.type = "http"
  · rw [if_pos ht]
    by_cases hh : s.headers ≠ []
    · rw [if_pos hh]
      generalize hg1 : "[mcp_servers.".toList ++ s.name.toList ++ [']'] = L1 at hhdr ⊢
      generalize hg2 : "url = ".toList ++ goQuote s.url = L2 at hurl ⊢
      generalize hg3 :
        "http_headers = \x7b ".toList ++ inlinePairs s.headers ++ " \x7d".toList = L3 at hhd2 ⊢
      simp [List.filter, hhdr, hurl, hhd2, hblank]
    · rw [if_neg hh]
      generalize hg1 : "[mcp_servers.".toList ++ s.name.toList ++ [']'] = L1 at hhdr ⊢
      generalize hg2 : "url = ".toList ++ goQuote s.url = L2 at hurl ⊢
      simp [List.filter, hhdr, hurl, hblank]
  · rw [if_neg ht]
    by_cases ha : s.args ≠ [] <;> by_cases he : s.env ≠ [] <;>
      [rw [if_pos ha, if_pos he]; rw [if_pos ha, if_neg he];
       rw [if_neg ha, if_pos he]; rw [if_neg ha, if_neg he]] <;>
    · generalize hg1 : "[mcp_servers.".toList ++ s.name.toList ++ [']'] = L1 at hhdr ⊢
      generalize hg2 : "command = ".toList ++ goQuote s.command = L2 at hcmd ⊢
      generalize hg3 : "args = [".toList ++ inlineArgs s.args ++ [']'] = L3 at harg ⊢
      generalize hg4 : "env = \x7b ".toList ++ inlinePairs s.env ++ " \x7d".toList = L4 at henv ⊢
      simp [List.filter, hhdr, hcmd, harg, henv, hblank]

lemma sectionsText_eq_lineText (S : List MCPServer) :
    sectionsText S = lineText (sectionBlock S) := by
  induction S with
  | nil => rfl
  | cons s S ih =>
    have h1 : sectionsText (s :: S) = (sectionFor s ++ ['\n']) ++ sectionsText S := by
      simp [sectionsText]
    have h2 : sectionBlock (s :: S) = (sectionLines s ++ [[]]) ++ sectionBlock S := by
      simp [sectionBlock]
    rw [h1, h2, lineText_append, ih]
    have h3 : lineText (sectionLines s ++ [[]]) = sectionFor s ++ ['\n'] := by
      rw [lineText_append, sectionFor]
      simp [lineText]
    rw [h3]

lemma padSep_append_blanks (J : List Char) :
    ∃ r, (∀ ch ∈ r, ch = '\n') ∧ padSep J = J ++ r := by
  unfold padSep
  by_cases h1 : J ≠ [] ∧ ¬ tomlHasSuffix J ['\n', '\n'] = true
  · rw [if_pos h1]
    by_cases h2 : tomlHasSuffix J ['\n'] = true
    · rw [if_pos h2]
      exact ⟨['\n'], by decide, rfl⟩
    · rw [if_neg h2]
      exact ⟨['\n', '\n'], by decide, rfl⟩
  · rw [if_neg h1]
    exact ⟨[], by decide, by simp⟩

lemma padSep_ends_newline (J : List Char) (hJ : J ≠ []) :
    ∃ Q, padSep J = Q ++ ['\n'] := by
  unfold padSep
  by_cases h2 : tomlHasSuffix J ['\n', '\n'] = true
  · rw [if_neg (by simp [h2])]
    rcases List.isSuffixOf_iff_suffix.mp h2 with ⟨Q0, hQ⟩
    refine ⟨Q0 ++ ['\n'], ?_⟩
    rw [← hQ]
    simp
  · rw [if_pos ⟨hJ, by simp [h2]⟩]
    by_cases h1 : tomlHasSuffix J ['\n'] = true
    · rw [if_pos h1]
      exact ⟨J, rfl⟩
    · rw [if_neg h1]
      exact ⟨J ++ ['\n'], by simp⟩

lemma char_toNat_inj {a b : Char} (h : a.toNat = b.toNat) : a = b :=
  Char.ext (UInt32.ext h)

lemma lexLt_asymm : ∀ (a b : List Char), lexLt a b = true → lexLt b a = false := by
  intro a
  induction a with
  | nil =>
    intro b h
    cases b with
    | nil => simp [lexLt] at h
    | cons y ys => rfl
  | cons x xs ih =>
    intro b h
    cases b with
    | nil => simp [lexLt] at h
    | cons y ys =>
      unfold lexLt at h ⊢
      by_cases h1 : x.toNat < y.toNat
      · rw [if_neg (by omega), if_neg (by omega)]
      · rw [if_neg h1] at h
        by_cases h2 : x.toNat = y.toNat
        · rw [if_pos h2] at h
          rw [if_neg (by omega), if_pos (by omega)]
          exact ih ys h
        · rw [if_neg h2] at h
          exact absurd h (by simp)

lemma lexLt_trans : ∀ (a b c : List Char),
    lexLt a b = true → lexLt b c = true → lexLt a c = true := by
  intro a
  induction a with
  | nil =>
    intro b c hab hbc
    cases b with
    | nil => simp [lexLt] at hab
    | cons y ys =>
      cases c with
      | nil => simp [lexLt] at hbc
      | cons z zs => rfl
  | cons x xs ih =>
    intro b c hab hbc
    cases b with
    | nil => simp [lexLt] at hab
    | cons y ys =>
      cases c with
      | nil => simp [lexLt] at hbc
      | cons z zs =>
        unfold lexLt at hab hbc ⊢
        by_cases h1 : x.toNat < y.toNat <;> by_cases h2 : y.toNat < z.toNat
        · rw [if_pos (by omega)]
        · rw [if_neg h2] at hbc
          by_cases h3 : y.toNat = z.toNat
          · rw [if_pos (by omega)]
          · rw [if_neg h3] at hbc
            exact absurd hbc (by simp)
        · rw [if_neg h1] at hab
          by_cases h3 : x.toNat = y.toNat
          · rw [if_pos (by omega)]
          · rw [if_neg h3] at hab
            exact absurd hab (by simp)
        · rw [if_neg h1] at hab
          rw [if_neg h2] at hbc
          by_cases h3 : x.toNat = y.toNat
          · by_cases h4 : y.toNat = z.toNat
            · rw [if_pos h3] at hab
              rw [if_pos h4] at hbc
              rw [if_neg (by omega), if_pos (by omega)]
              exact ih ys zs hab hbc
            · rw [if_neg h4] at hbc
              exact absurd hbc (by simp)
          · rw [if_neg h3] at hab
            exact absurd hab (by simp)

lemma lexLt_eq_of_both_false : ∀ (a b : List Char),
    lexLt a b = false → lexLt b a = false → a = b := by
  intro a
  induction a with
  | nil =>
    intro b hab _
    cases b with
    | nil => rfl
    | cons y ys => simp [lexLt] at hab
  | cons x xs ih =>
    intro b hab hba
    cases b with
    | nil => simp [lexLt] at hba
    | cons y ys =>
      unfold lexLt at hab hba
      by_cases h1 : x.toNat < y.toNat
      · rw [if_pos h1] at hab
        exact absurd hab (by simp)
      · by_cases h2 : y.toNat < x.toNat
        · rw [if_pos h2] at hba
          exact absurd hba (by simp)
        · have h3 : x.toNat = y.toNat := by omega
          rw [if_neg h1, if_pos h3] at hab
          rw [if_neg h2, if_pos h3.symm] at hba
          rw [char_toNat_inj h3, ih ys hab hba]

lemma strLe_trans (a b c : String) (h1 : strLe a b = true) (h2 : strLe b c = true) :
    strLe a c = true := by
  unfold strLe strLt at h1 h2 ⊢
  simp only [String.toList] at h1 h2 ⊢
  rw [Bool.not_eq_true'] at h1 h2 ⊢
  by_cases hca : lexLt c.data a.data = true
  · by_cases hab : lexLt a.data b.data = true
    · exact absurd (lexLt_trans _ _ _ hca hab) (by simp [h2])
    · rw [lexLt_eq_of_both_false _ _ (Bool.not_eq_true _ ▸ hab) h1] at hca
      exact absurd hca (by simp [h2])
  · exact Bool.not_eq_true _ ▸ hca

lemma strLe_total (a b : String) : (strLe a b || strLe b a) = true := by
  unfold strLe strLt
  simp only [String.toList]
  by_cases h : lexLt b.data a.data = true
  · have := lexLt_asymm _ _ h
    simp [this]
  · simp [Bool.not_eq_true _ ▸ h]

lemma sortStrings_sorted (l : List String) :
    List.Pairwise (fun a b => strLe a b = true) (sortStrings l) :=
  List.sorted_mergeSort strLe_trans strLe_total l

lemma lookup_setKey_self (k : String) (v : Json) :
    ∀ (l : List (String × Json)), (setKey k v l).lookup k = some v := by
  intro l
  induction l with
  | nil => simp [setKey, List.lookup]
  | cons ab rest ih =>
    obtain ⟨a, b⟩ := ab
    simp only [setKey]
    by_cases h1 : strLt k a = true
    · rw [if_pos h1]
      simp [List.lookup]
    · rw [if_neg h1]
      by_cases h2 : k = a
      · rw [if_pos h2]
        simp [List.lookup]
      · rw [if_neg h2]
        have hb : (k == a) = false := by
          cases hq : k == a with
          | false => rfl
          | true => exact absurd (beq_iff_eq.mp hq) h2
        simp [List.lookup, hb, ih]

lemma mem_keys_setKey (n k : String) (v : Json) :
    ∀ (l : List (String × Json)),
      n ∈ (setKey k v l).map Prod.fst ↔ n = k ∨ n ∈ l.map Prod.fst := by
  intro l
  induction l with
  | nil => simp [setKey]
  | cons ab rest ih =>
    obtain ⟨a, b⟩ := ab
    simp only [setKey]
    by_cases h1 : strLt k a = true
    · rw [if_pos h1]
      simp only [List.map_cons, List.mem_cons]
      try tauto
    · rw [if_neg h1]
      by_cases h2 : k = a
      · rw [if_pos h2]
        subst h2
        simp only [List.map_cons, List.mem_cons]
        try tauto
      · rw [if_neg h2]
        simp only [List.map_cons, List.mem_cons, ih]
        try tauto

lemma mem_keys_mkObjAux (n : String) :
    ∀ (l acc : List (String × Json)),
      (n ∈ (l.foldl (fun acc kv => setKey kv.1 kv.2 acc) acc).map Prod.fst ↔
        n ∈ acc.map Prod.fst ∨ n ∈ l.map Prod.fst) := by
  intro l
  induction l with
  | nil => simp
  | cons kv rest ih =>
    intro acc
    simp only [List.foldl_cons, ih, mem_keys_setKey, List.map_cons, List.mem_cons]
    tauto

lemma mem_keys_mkObj (n : String) (l : List (String × Json)) :
    n ∈ (mkObj l).map Prod.fst ↔ n ∈ l.map Prod.fst := by
  unfold mkObj
  rw [mem_keys_mkObjAux]
  simp

lemma sectionBlock_clean (S : List MCPServer)
    (hnames : ∀ s ∈ S, '\n' ∉ s.name.toList) :
    ∀ l ∈ sectionBlock S, '\n' ∉ l := by
  intro l hl
  unfold sectionBlock at hl
  rcases List.mem_flatten.mp hl with ⟨block, hb, hmem⟩
  rcases List.mem_map.mp hb with ⟨s, hs, hblock⟩
  subst hblock
  rcases List.mem_append.mp hmem with h | h
  · exact sectionLines_clean s (hnames s hs) l h
  · rw [List.mem_singleton.mp h]
    simp

lemma filter_sectionBlock (S : List MCPServer) :
    (sectionBlock S).filter (fun l => isMcpHeader l) = S.map headerLineFor := by
  induction S with
  | nil => rfl
  | cons s S ih =>
    have hb : sectionBlock (s :: S) = (sectionLines s ++ [[]]) ++ sectionBlock S := by
      simp [sectionBlock]
    rw [hb, List.filter_append, filter_sectionLines, ih, List.map_cons,
      List.singleton_append]

lemma padSep_nil : padSep [] = [] := by
  simp [padSep]

lemma codex_filter_headers (S : List MCPServer) (c : List Char)
    (hnames : ∀ s ∈ S, '\n' ∉ s.name.toList) :
    (tomlSplitLines (syncToCodex S c)).filter (fun l => isMcpHeader l) =
      S.map headerLineFor := by
  have hKclean : ∀ l ∈ filterMcpLines false (tomlSplitLines c), '\n' ∉ l :=
    fun l hl => tomlSplitLines_no_newline c l (filterMcpLines_mem false _ l hl)
  have hKnohdr : ∀ l ∈ filterMcpLines false (tomlSplitLines c), isMcpHeader l = false :=
    filterMcpLines_no_header false _
  have hblock_clean := sectionBlock_clean S hnames
  by_cases hS : S = []
  · subst hS
    simp only [syncToCodex, if_pos rfl]
    apply List.filter_eq_nil_iff.mpr
    intro l hl
    have hl2 : l ∈ tomlSplitLines
        (tomlJoinLines (filterMcpLines false (tomlSplitLines c)) ++ []) := by
      rwa [List.append_nil]
    rcases splitJoinPad_sub [] (by simp) _ hKclean l hl2 with h | h
    · simp [hKnohdr l h]
    · subst h
      decide
  · simp only [syncToCodex, if_neg hS]
    rcases padSep_append_blanks
        (tomlJoinLines (filterMcpLines false (tomlSplitLines c))) with ⟨r, hr, hP⟩
    by_cases hJ : tomlJoinLines (filterMcpLines false (tomlSplitLines c)) = []
    · rw [hJ, padSep_nil, List.nil_append, sectionsText_eq_lineText]
      have h3 := tomlSplitLines_lineText (sectionBlock S) hblock_clean []
      rw [show tomlSplitLines ([] : List Char) = [] from rfl, List.append_nil,
        List.append_nil] at h3
      rw [h3, filter_sectionBlock]
    · rcases padSep_ends_newline _ hJ with ⟨Q, hQ⟩
      rw [hQ, List.append_assoc, List.singleton_append,
        tomlSplitLines_term_append Q _, List.filter_append]
      have h1 : (tomlSplitLines (Q ++ ['\n'])).filter (fun l => isMcpHeader l) = [] := by
        apply List.filter_eq_nil_iff.mpr
        intro l hl
        have hl2 : l ∈ tomlSplitLines
            (tomlJoinLines (filterMcpLines false (tomlSplitLines c)) ++ r) := by
          rw [← hP, hQ]
          exact hl
        rcases splitJoinPad_sub r hr _ hKclean l hl2 with h | h
        · simp [hKnohdr l h]
        · subst h
          decide
      rw [h1, List.nil_append, sectionsText_eq_lineText]
      have h2 := tomlSplitLines_lineText (sectionBlock S) hblock_clean []
      rw [show tomlSplitLines ([] : List Char) = [] from rfl, List.append_nil,
        List.append_nil] at h2
      rw [h2, filter_sectionBlock]

/-- C1 (code bug): the adapters are required to be idempotent, but the TOML
section-rewrite adapter is not.  On a pre-existing file whose retained
content ends in more than one blank line, the first run appends the
sections directly (the text already ends in a blank line), while the second
run's split/join round trip drops one trailing newline before appending, so
the two runs write different bytes.  This theorem evaluates the adapter at
the failing input: content `"a\n\n\n\n"` with one stdio server. -/
theorem syncToCodex_not_idempotent :
    syncToCodex [codexDemoServer] "a\n\n\n\n".toList =
      "a\n\n\n[mcp_servers.x]\ncommand = \"c\"\n\n".toList ∧
    syncToCodex [codexDemoServer]
        (syncToCodex [codexDemoServer] "a\n\n\n\n".toList) =
      "a\n\n[mcp_servers.x]\ncommand = \"c\"\n\n".toList ∧
    syncToCodex [codexDemoServer]
        (syncToCodex [codexDemoServer] "a\n\n\n\n".toList) ≠
      syncToCodex [codexDemoServer] "a\n\n\n\n".toList := by
  decide

/-- C3: after a sync, the designated key (for the key-merge adapters) and
the owned TOML section set (for the section-rewrite adapter) contain an
entry for exactly the input servers: the designated key is bound to the
freshly built server map whose keys are exactly the input server names, and
the owned section headers of the TOML output are exactly one header per
input server, in order — no prior entry survives. -/
theorem sync_replacement_completeness (S : List MCPServer) (key : String)
    (t : List (String × Json)) (c : List Char)
    (hnames : ∀ s ∈ S, '\n' ∉ s.name.toList) :
    ((syncToSettingsWithKey S key t).lookup key = some (mcpServersValue S)) ∧
    (∀ n, (n ∈ (mkObj (S.map fun s => (s.name, settingsEntry s))).map Prod.fst ↔
        n ∈ S.map MCPServer.name)) ∧
    ((tomlSplitLines (syncToCodex S c)).filter (fun l => isMcpHeader l) =
      S.map headerLineFor) := by
  refine ⟨lookup_setKey_self key _ t, ?_, codex_filter_headers S c hnames⟩
  intro n
  have hmap : (S.map fun s => (s.name, settingsEntry s)).map Prod.fst =
      S.map MCPServer.name := by
    rw [List.map_map]
    rfl
  rw [mem_keys_mkObj, hmap]

/-- C8 (amended): for a non-empty server list whose names contain no
newline, and an input file whose retained (non-owned) content is non-empty
and does not end in a blank line, the TOML adapter keeps every line outside
previously owned sections verbatim and in order, drops every owned section,
and appends one freshly generated section per input server at the end,
separated by exactly one blank line; nested mapping keys (headers, env) are
emitted in sorted order.  (When the retained content already ends in blank
lines the adapter collapses them instead of keeping them all — see the
counterexample.) -/
theorem syncToCodex_section_rewrite (S : List MCPServer) (c : List Char)
    (hS : S ≠ [])
    (hJ : tomlJoinLines (filterMcpLines false (tomlSplitLines c)) ≠ [])
    (hlast : tomlHasSuffix
      (tomlJoinLines (filterMcpLines false (tomlSplitLines c))) ['\n'] = false) :
    syncToCodex S c =
      tomlJoinLines (filterMcpLines false (tomlSplitLines c)) ++ ['\n', '\n']
        ++ sectionsText S ∧
    (∀ s ∈ S, List.Pairwise (fun a b => strLe a b = true)
        (sortStrings (s.env.map Prod.fst)) ∧
      List.Pairwise (fun a b => strLe a b = true)
        (sortStrings (s.headers.map Prod.fst))) := by
  constructor
  · simp only [syncToCodex, if_neg hS]
    have h2 : tomlHasSuffix
        (tomlJoinLines (filterMcpLines false (tomlSplitLines c))) ['\n', '\n'] = false := by
      cases hq : tomlHasSuffix
          (tomlJoinLines (filterMcpLines false (tomlSplitLines c))) ['\n', '\n'] with
      | false => rfl
      | true =>
        rcases List.isSuffixOf_iff_suffix.mp hq with ⟨t, ht⟩
        have hone : tomlHasSuffix
            (tomlJoinLines (filterMcpLines false (tomlSplitLines c))) ['\n'] = true := by
          rw [tomlHasSuffix, List.isSuffixOf_iff_suffix]
          exact ⟨t ++ ['\n'], by rw [← ht]; simp⟩
        rw [hone] at hlast
        cases hlast
    unfold padSep
    rw [if_pos ⟨hJ, by simp [h2]⟩, if_neg (by simp [hlast])]
  · intro s _
    exact ⟨sortStrings_sorted _, sortStrings_sorted _⟩

/-- Counterexample for C8 as stated: on input `"a\n\n\n\n\n"` (a line
followed by four blank lines, none inside an owned section) the output of
the adapter holds fewer non-header lines before the first generated section
header than there are retained input lines, so not every non-owned line is
kept. -/
theorem syncToCodex_section_rewrite_counterexample :
    ((tomlSplitLines (syncToCodex [codexDemoServer] "a\n\n\n\n\n".toList)).takeWhile
        (fun l => !(isMcpHeader l))).length <
      (filterMcpLines false (tomlSplitLines "a\n\n\n\n\n".toList)).length := by
  decide
/-- Witness for C3 at one stdio server, the `theme` settings file and a
`model = "gpt-4"` TOML file. -/
theorem sync_replacement_completeness_witness :
    ((syncToSettingsWithKey [codexDemoServer] "mcpServers"
        [("theme", .str "dark")]).lookup "mcpServers" =
      some (mcpServersValue [codexDemoServer])) ∧
    (∀ n, (n ∈ (mkObj ([codexDemoServer].map fun s =>
        (s.name, settingsEntry s))).map Prod.fst ↔
        n ∈ [codexDemoServer].map MCPServer.name)) ∧
    ((tomlSplitLines (syncToCodex [codexDemoServer]
        "model = \"gpt-4\"\n".toList)).filter (fun l => isMcpHeader l) =
      [codexDemoServer].map headerLineFor) :=
  sync_replacement_completeness [codexDemoServer] "mcpServers"
    [("theme", .str "dark")] "model = \"gpt-4\"\n".toList (by decide)

/-- Witness for C8 at one stdio server against a file holding a single
unrelated `model = "gpt-4"` line. -/
theorem syncToCodex_section_rewrite_witness :
    (syncToCodex [codexDemoServer] "model = \"gpt-4\"".toList =
      tomlJoinLines (filterMcpLines false
          (tomlSplitLines "model = \"gpt-4\"".toList)) ++ ['\n', '\n']
        ++ sectionsText [codexDemoServer]) ∧
    (∀ s ∈ [codexDemoServer], List.Pairwise (fun a b => strLe a b = true)
        (sortStrings (s.env.map Prod.fst)) ∧
      List.Pairwise (fun a b => strLe a b = true)
        (sortStrings (s.headers.map Prod.fst))) :=
  syncToCodex_section_rewrite [codexDemoServer] "model = \"gpt-4\"".toList
    (by decide) (by decide) (by decide)

end Mcpr
